import Mathlib

/-!
# Verification of `src/features/modals/NodeModal/index.tsx`

A shallow embedding of the NodeModal component of a JSON-visualization tool:
the row-flattening display helper (`normalizeNodeData`), the JSON-path
pretty-printer (`jsonPathToString`), the path-based `getAtPath` / `setAtPath`
helpers, the `details` / `nutrients` merge and the whole `handleSave` pipeline,
together with models of the JavaScript runtime pieces they rely on
(`JSON.parse`, `JSON.stringify(·, null, 2)`, property access and assignment,
string coercion).

Modelling conventions, stated once:
* JavaScript values reachable in this component are modelled by `JSVal`.
  `undef` is JavaScript's `undefined`.  Arrays carry their element list plus
  the non-index ("expando") string properties that bracket assignment with a
  non-canonical-numeral key creates; `JSON.stringify` drops those, as in JS.
* JSON numbers are modelled as integers (the component never manipulates
  numerics; fractional literals and exponents are outside the model, so the
  modelled `JSON.parse` rejects them and the modelled serializer never emits
  them).
* Property keys: a numeric segment used on an object is coerced to its decimal
  string, and a string segment that is a canonical decimal numeral indexes an
  array's elements, as in JS.  String values expose their characters at
  numeral keys (`"ab"[0] = "a"`); the `length` property and string methods are
  not modelled (they never decide any claim: every claim's hypotheses exclude
  non-container intermediates).
* Assignment to a property of a primitive throws in strict mode (`.tsx`
  modules are strict); `jsWrite` returns `none` there and the save pipeline's
  `try`/`catch` maps any `none` to the error path.
* `JSON.parse` of strings containing `\uXXXX` escapes and `JSON.stringify`'s
  `\u` escaping of control characters are not modelled; both sides of the
  round-trip use the escape set `\" \\ \n \t \r`, with other characters
  carried verbatim.
* `JSON.stringify` applied to a top-level `undefined` returns the value
  `undefined` rather than a string; the pipeline can never feed it one (the
  candidate value is never `undefined` and `setAtPath` returns either that
  value or a container), so the serializer totalizes this case as `"null"`.
-/

/-- A JavaScript runtime value as reachable in this component.  `arr` carries
the element list and the array's non-index string properties (created by
assigning a non-numeral key; ignored by `JSON.stringify`, as in JS). -/
inductive JSVal where
  | undef
  | null
  | bool (b : Bool)
  | num (n : Int)
  | str (s : String)
  | arr (elems : List JSVal) (props : List (String × JSVal))
  | obj (fields : List (String × JSVal))

/-- A path segment: `NodeData["path"]` elements are `string | number`; the
numeric segments produced by the graph are array indices (naturals). -/
inductive Seg where
  | key (s : String)
  | idx (n : Nat)
deriving DecidableEq

/-- Decimal digit character for `d ≤ 9` (used to model JS number→string
coercion). -/
def digitCh (d : Nat) : Char :=
  match d with
  | 0 => '0' | 1 => '1' | 2 => '2' | 3 => '3' | 4 => '4'
  | 5 => '5' | 6 => '6' | 7 => '7' | 8 => '8' | _ => '9'

/-- Numeric value of a digit character. -/
def chVal (c : Char) : Nat := c.toNat - '0'.toNat

/-- Little-endian digit emission with structural fuel (`fuel ≥ n` suffices). -/
def natKeyAux : Nat → Nat → List Char
  | 0, _ => []
  | _, 0 => []
  | fuel + 1, n + 1 => digitCh ((n + 1) % 10) :: natKeyAux fuel ((n + 1) / 10)

/-- The decimal representation of a natural, most significant digit first:
the model of JavaScript's `String(n)` / property-key coercion. -/
def natKeyChars (n : Nat) : List Char :=
  match n with
  | 0 => ['0']
  | _ => (natKeyAux n n).reverse

/-- `String(n)` for a natural `n`. -/
def natKey (n : Nat) : String := String.mk (natKeyChars n)

/-- Value of a digit-character list, most significant first. -/
def digitsToNat (l : List Char) : Nat :=
  Nat.ofDigits 10 ((l.map chVal).reverse)

/-- `some n` iff the string is the canonical decimal numeral of `n` — the
keys under which JavaScript arrays expose their elements (`a["3"] = a[3]`;
`"03"`, `"-1"`, `"x"` are ordinary expando properties instead). -/
def canonNat (s : String) : Option Nat :=
  match s.data with
  | [] => none
  | c :: cs =>
    if (c :: cs).all Char.isDigit then
      if c = '0' && !cs.isEmpty then none
      else some (digitsToNat (c :: cs))
    else none

/-- Association-list lookup modelling JS property read on a plain object. -/
def assocGet (l : List (String × JSVal)) (k : String) : Option JSVal :=
  match l with
  | [] => none
  | (k', v) :: rest => if k' = k then some v else assocGet rest k

/-- Association-list update modelling JS property write: an existing key keeps
its position (JS objects preserve insertion order), a new key is appended. -/
def assocSet (l : List (String × JSVal)) (k : String) (v : JSVal) :
    List (String × JSVal) :=
  match l with
  | [] => [(k, v)]
  | (k', v') :: rest =>
    if k' = k then (k, v) :: rest else (k', v') :: assocSet rest k v

/-- Array element write: within bounds replaces, out of bounds pads with holes
(`undefined`) exactly as JS assignment beyond `length` does. -/
def listSet : List JSVal → Nat → JSVal → List JSVal
  | [], 0, v => [v]
  | [], n + 1, v => JSVal.undef :: listSet [] n v
  | _ :: xs, 0, v => v :: xs
  | x :: xs, n + 1, v => x :: listSet xs n v

/-- JS property read `cur[seg]`, totalized: reading a missing property gives
`undefined`.  Reading on `null`/`undefined` would throw in JS; every caller in
the source guards with `cur == null` / the `??` operator first, so the value
returned for them here is never observed. -/
def jsIndex : JSVal → Seg → JSVal
  | JSVal.obj fs, Seg.key k => (assocGet fs k).getD JSVal.undef
  | JSVal.obj fs, Seg.idx n => (assocGet fs (natKey n)).getD JSVal.undef
  | JSVal.arr xs _, Seg.idx n => (xs.get? n).getD JSVal.undef
  | JSVal.arr xs props, Seg.key k =>
    (match canonNat k with
     | some n => (xs.get? n).getD JSVal.undef
     | none => (assocGet props k).getD JSVal.undef)
  | JSVal.str s, Seg.idx n =>
    (match s.data.get? n with
     | some c => JSVal.str (String.mk [c])
     | none => JSVal.undef)
  | JSVal.str s, Seg.key k =>
    (match canonNat k with
     | some n =>
       match s.data.get? n with
       | some c => JSVal.str (String.mk [c])
       | none => JSVal.undef
     | none => JSVal.undef)
  | _, _ => JSVal.undef

/-- JS property write `cur[seg] = v` in strict mode: succeeds on objects and
arrays (numeral string keys hit array elements, other string keys become
expando properties), throws (`none`) on primitives. -/
def jsWrite : JSVal → Seg → JSVal → Option JSVal
  | JSVal.obj fs, Seg.key k, v => some (JSVal.obj (assocSet fs k v))
  | JSVal.obj fs, Seg.idx n, v => some (JSVal.obj (assocSet fs (natKey n) v))
  | JSVal.arr xs props, Seg.idx n, v => some (JSVal.arr (listSet xs n v) props)
  | JSVal.arr xs props, Seg.key k, v =>
    (match canonNat k with
     | some n => some (JSVal.arr (listSet xs n v) props)
     | none => some (JSVal.arr xs (assocSet props k v)))
  | _, _, _ => none

/-- `getAtPath` (lines 70–79 / 313–322): walks the path, returning the
document for the empty path and `undefined` as soon as a `null`/`undefined`
intermediate is met (`if (cur == null) return undefined`). -/
def getAtPath : JSVal → List Seg → JSVal
  | cur, [] => cur
  | JSVal.null, _ :: _ => JSVal.undef
  | JSVal.undef, _ :: _ => JSVal.undef
  | cur, seg :: rest => getAtPath (jsIndex cur seg) rest

/-- The `path?: NodeData["path"]` wrapper: a missing (`undefined`) path returns
the object itself (`if (!path || path.length === 0) return obj`). -/
def getAtPathOpt (obj : JSVal) : Option (List Seg) → JSVal
  | none => obj
  | some p => getAtPath obj p

/-- The default container `setAtPath` creates for a missing intermediate:
`typeof nextSeg === "number" ? [] : {}`. -/
def defaultFor : Seg → JSVal
  | Seg.idx _ => JSVal.arr [] []
  | Seg.key _ => JSVal.obj []

/-- The loop body of `setAtPath` as a pure recursion: at each intermediate
segment `cur[seg] = cur[seg] ?? default` then descend, and write the value at
the last segment.  `none` models the strict-mode `TypeError` of assigning to a
primitive's property. -/
def setGo : JSVal → List Seg → JSVal → Option JSVal
  | _, [], v => some v
  | cur, [last], v => jsWrite cur last v
  | cur, seg :: nx :: rest, v =>
    let child :=
      match jsIndex cur seg with
      | JSVal.undef => defaultFor nx
      | JSVal.null => defaultFor nx
      | c => c
    match setGo child (nx :: rest) v with
    | none => none
    | some child' => jsWrite cur seg child'

/-- The top-level copy `Array.isArray(obj) ? obj.slice() : { ...obj }`:
`slice` keeps elements but drops an array's expando properties; spreading an
object copies it, spreading a string enumerates its characters, and spreading
any other primitive (or `null`/`undefined`) yields `{}`. -/
def charFields (s : String) : List (String × JSVal) :=
  (List.range s.length).map
    (fun i => (natKey i, JSVal.str (String.mk [s.data.getD i ' '])))

def topCopy : JSVal → JSVal
  | JSVal.arr xs _ => JSVal.arr xs []
  | JSVal.obj fs => JSVal.obj fs
  | JSVal.str s => JSVal.obj (charFields s)
  | _ => JSVal.obj []

/-- `setAtPath` (lines 51–68 / 294–311): an empty path returns the value in
place of the document; otherwise shallow-copy the top level and run the loop. -/
def setAtPath (obj : JSVal) (path : List Seg) (value : JSVal) : Option JSVal :=
  match path with
  | [] => some value
  | _ :: _ => setGo (topCopy obj) path value

/-- The `path?: ...` wrapper of `setAtPath`: `if (!path || path.length === 0)
return value`. -/
def setAtPathOpt (obj : JSVal) (path : Option (List Seg)) (value : JSVal) :
    Option JSVal :=
  match path with
  | none => some value
  | some p => setAtPath obj p value

/-- JS truthiness of the modelled values. -/
def truthy : JSVal → Bool
  | JSVal.undef => false
  | JSVal.null => false
  | JSVal.bool b => b
  | JSVal.num n => !(n == 0)
  | JSVal.str s => !(s == "")
  | JSVal.arr _ _ => true
  | JSVal.obj _ => true

/-- `typeof v === "object"` (true for `null`, arrays and plain objects). -/
def isObjTy : JSVal → Bool
  | JSVal.null => true
  | JSVal.arr _ _ => true
  | JSVal.obj _ => true
  | _ => false

def isNullV : JSVal → Bool
  | JSVal.null => true
  | _ => false

def isUndefV : JSVal → Bool
  | JSVal.undef => true
  | _ => false

/-- Property write whose failure case cannot occur at its call sites (the
target is known to be an array or object); value-level identity to JS. -/
def jsWriteD (cur : JSVal) (s : Seg) (v : JSVal) : JSVal :=
  (jsWrite cur s v).getD cur

/-- Lines 133–139 / 350–356: carry `details` and `nutrients` forward from the
existing value when it is a truthy object, the new value is a non-null object,
the existing field is truthy and the new value's field is `undefined`. -/
def mergePreserve (existing newV : JSVal) : JSVal :=
  if truthy existing && isObjTy existing && isObjTy newV && !isNullV newV then
    let n1 :=
      if truthy (jsIndex existing (Seg.key "details")) &&
         isUndefV (jsIndex newV (Seg.key "details")) then
        jsWriteD newV (Seg.key "details") (jsIndex existing (Seg.key "details"))
      else newV
    if truthy (jsIndex existing (Seg.key "nutrients")) &&
       isUndefV (jsIndex n1 (Seg.key "nutrients")) then
      jsWriteD n1 (Seg.key "nutrients") (jsIndex existing (Seg.key "nutrients"))
    else n1
  else newV

/-! ## `JSON.stringify(·, null, 2)` and `JSON.parse`, modelled

The serializer reproduces the layout of `JSON.stringify(value, null, 2)`:
2-space indentation per nesting level, `": "` after keys, `"[]"`/`"{}"` for
empty containers, object fields with `undefined` values skipped, `undefined`
array elements printed as `null`.  The parser is a fuel-indexed recursive
descent over the character list. -/

def intKeyChars (n : Int) : List Char :=
  if n < 0 then '-' :: natKeyChars n.natAbs else natKeyChars n.toNat

/-- The serializer's escape for one character (the modelled escape set). -/
def escChar (c : Char) : List Char :=
  if c = '"' then ['\\', '"']
  else if c = '\\' then ['\\', '\\']
  else if c = '\n' then ['\\', 'n']
  else if c = '\t' then ['\\', 't']
  else if c = '\r' then ['\\', 'r']
  else [c]

def escChars : List Char → List Char
  | [] => []
  | c :: cs => escChar c ++ escChars cs

/-- A JSON string literal's characters: quote, escaped body, quote. -/
def serStrChars (s : String) : List Char :=
  '"' :: (escChars s.data ++ ['"'])

def spacesC (n : Nat) : List Char := List.replicate n ' '

/-- Join already-rendered object entries with `",\n"`. -/
def joinFields : List (List Char) → List Char
  | [] => []
  | [p] => p
  | p :: q :: ps => p ++ ',' :: '\n' :: joinFields (q :: ps)

mutual
/-- `JSON.stringify(v, null, 2)` rendered at indentation level `ind`. -/
def serVal : Nat → JSVal → List Char
  | _, JSVal.undef => ['n', 'u', 'l', 'l']
  | _, JSVal.null => ['n', 'u', 'l', 'l']
  | _, JSVal.bool true => ['t', 'r', 'u', 'e']
  | _, JSVal.bool false => ['f', 'a', 'l', 's', 'e']
  | _, JSVal.num n => intKeyChars n
  | _, JSVal.str s => serStrChars s
  | _, JSVal.arr [] _ => ['[', ']']
  | ind, JSVal.arr (x :: xs) _ =>
    '[' :: '\n' :: (serItems (ind + 2) (x :: xs) ++ '\n' :: (spacesC ind ++ [']']))
  | ind, JSVal.obj fs =>
    match serFields (ind + 2) fs with
    | [] => ['\x7b', '\x7d']
    | p :: ps =>
      '\x7b' :: '\n' :: (joinFields (p :: ps) ++ '\n' :: (spacesC ind ++ ['\x7d']))

/-- Comma-and-newline separated array elements, each on its own indented
line. -/
def serItems : Nat → List JSVal → List Char
  | _, [] => []
  | ind, [x] => spacesC ind ++ serVal ind x
  | ind, x :: y :: ys =>
    spacesC ind ++ (serVal ind x ++ ',' :: '\n' :: serItems ind (y :: ys))

/-- Rendered object entries, skipping fields whose value is `undefined`
(as `JSON.stringify` does). -/
def serFields : Nat → List (String × JSVal) → List (List Char)
  | _, [] => []
  | ind, (_, JSVal.undef) :: fs => serFields ind fs
  | ind, (k, v) :: fs =>
    (spacesC ind ++ (serStrChars k ++ ':' :: ' ' :: serVal ind v)) :: serFields ind fs
end

/-- `JSON.stringify(v, null, 2)` as a string. -/
def jsonStringify (v : JSVal) : String := String.mk (serVal 0 v)

def wsCh (c : Char) : Bool := c = ' ' || c = '\n' || c = '\t' || c = '\r'

def skipWs : List Char → List Char
  | [] => []
  | c :: cs => if wsCh c then skipWs cs else c :: cs

/-- JSON string-escape inverse for the modelled escape set. -/
def unesc (c : Char) : Option Char :=
  if c = '"' then some '"'
  else if c = '\\' then some '\\'
  else if c = '/' then some '/'
  else if c = 'n' then some '\n'
  else if c = 't' then some '\t'
  else if c = 'r' then some '\r'
  else if c = 'b' then some '\x08'
  else if c = 'f' then some '\x0c'
  else none

/-- Body of a JSON string literal after the opening quote. -/
def parseStrBody : List Char → List Char → Option (String × List Char)
  | _, [] => none
  | acc, c :: cs =>
    if c = '"' then some (String.mk acc.reverse, cs)
    else if c = '\\' then
      match cs with
      | [] => none
      | e :: cs' =>
        match unesc e with
        | some c' => parseStrBody (c' :: acc) cs'
        | none => none
    else parseStrBody (c :: acc) cs

/-- An unsigned JSON integer literal: one or more digits, no leading zero. -/
def parseNum (l : List Char) : Option (Nat × List Char) :=
  match l.takeWhile Char.isDigit with
  | [] => none
  | d :: ds =>
    if d = '0' && !ds.isEmpty then none
    else some (digitsToNat (d :: ds), l.dropWhile Char.isDigit)

mutual
/-- Fuel-indexed recursive-descent JSON value parser (the model of
`JSON.parse`, minus fractional/exponent numbers and `\u` escapes). -/
def parseVal : Nat → List Char → Option (JSVal × List Char)
  | 0, _ => none
  | fuel + 1, cs =>
    match skipWs cs with
    | [] => none
    | c :: rest =>
      if c.isDigit then
        match parseNum (c :: rest) with
        | some (m, rest') => some (JSVal.num (Int.ofNat m), rest')
        | none => none
      else if c = '-' then
        match parseNum rest with
        | some (m, rest') => some (JSVal.num (-(Int.ofNat m)), rest')
        | none => none
      else if c = '"' then
        match parseStrBody [] rest with
        | some (s, rest') => some (JSVal.str s, rest')
        | none => none
      else if c = '[' then
        match skipWs rest with
        | [] => none
        | c2 :: rest2 =>
          if c2 = ']' then some (JSVal.arr [] [], rest2)
          else
            match parseArrItems fuel rest with
            | some (vs, rest') => some (JSVal.arr vs [], rest')
            | none => none
      else if c = '\x7b' then
        match skipWs rest with
        | [] => none
        | c2 :: rest2 =>
          if c2 = '\x7d' then some (JSVal.obj [], rest2)
          else
            match parseObjItems fuel rest with
            | some (fs, rest') => some (JSVal.obj fs, rest')
            | none => none
      else if c = 'n' then
        match rest with
        | 'u' :: 'l' :: 'l' :: rest' => some (JSVal.null, rest')
        | _ => none
      else if c = 't' then
        match rest with
        | 'r' :: 'u' :: 'e' :: rest' => some (JSVal.bool true, rest')
        | _ => none
      else if c = 'f' then
        match rest with
        | 'a' :: 'l' :: 's' :: 'e' :: rest' => some (JSVal.bool false, rest')
        | _ => none
      else none

/-- One-or-more comma-separated array elements, consuming the closing `]`. -/
def parseArrItems : Nat → List Char → Option (List JSVal × List Char)
  | 0, _ => none
  | fuel + 1, cs =>
    match parseVal fuel cs with
    | none => none
    | some (v, rest) =>
      match skipWs rest with
      | ',' :: rest' =>
        (match parseArrItems fuel rest' with
         | some (vs, rest'') => some (v :: vs, rest'')
         | none => none)
      | ']' :: rest' => some ([v], rest')
      | _ => none

/-- One-or-more comma-separated object members, consuming the closing `}`. -/
def parseObjItems : Nat → List Char → Option (List (String × JSVal) × List Char)
  | 0, _ => none
  | fuel + 1, cs =>
    match skipWs cs with
    | '"' :: cs1 =>
      (match parseStrBody [] cs1 with
       | none => none
       | some (k, cs2) =>
         match skipWs cs2 with
         | ':' :: cs3 =>
           (match parseVal fuel cs3 with
            | none => none
            | some (v, cs4) =>
              match skipWs cs4 with
              | ',' :: cs5 =>
                (match parseObjItems fuel cs5 with
                 | some (fs, cs6) => some ((k, v) :: fs, cs6)
                 | none => none)
              | '\x7d' :: cs5 => some ([(k, v)], cs5)
              | _ => none)
         | _ => none)
    | _ => none
end

/-- `JSON.parse`: parse one value, then only whitespace may remain. -/
def jsonParse (s : String) : Option JSVal :=
  match parseVal (2 * s.length + 2) s.data with
  | some (v, rest) =>
    (match skipWs rest with
     | [] => some v
     | _ => none)
  | none => none

/-! ## The component: rows, display flattening, stores and `handleSave` -/

/-- One display row of a node (`NodeData["text"]` element): `key?: string`,
`value: any`, `type: string`.  A missing key and the empty string are both
falsy in every check the component makes (`!rows[0].key`, `if (row.key)`), so
the absent key is modelled as `""`. -/
structure Row where
  key : String
  value : JSVal
  type : String

mutual
/-- JavaScript `String(v)` / template-literal coercion, as used by
`${nodeRows[0].value}`: arrays join their elements with `","` (with
`null`/`undefined` elements rendering empty), objects render as
`"[object Object]"`. -/
def jsToString : JSVal → String
  | JSVal.undef => "undefined"
  | JSVal.null => "null"
  | JSVal.bool true => "true"
  | JSVal.bool false => "false"
  | JSVal.num n => String.mk (intKeyChars n)
  | JSVal.str s => s
  | JSVal.arr xs _ => jsToStringItems xs
  | JSVal.obj _ => "[object Object]"
termination_by v => sizeOf v

/-- `Array.prototype.join(",")` over already-coerced elements;
`null`/`undefined` elements render as the empty string. -/
def jsToStringItems : List JSVal → String
  | [] => ""
  | [JSVal.undef] => ""
  | [JSVal.null] => ""
  | [x] => jsToString x
  | JSVal.undef :: y :: ys => "," ++ jsToStringItems (y :: ys)
  | JSVal.null :: y :: ys => "," ++ jsToStringItems (y :: ys)
  | x :: y :: ys => jsToString x ++ "," ++ jsToStringItems (y :: ys)
termination_by xs => sizeOf xs
end

/-- The object-building loop of `normalizeNodeData` (lines 15–20): rows whose
type is `"array"`/`"object"` are skipped, keyed rows are written into the
accumulating object (later rows overwrite earlier ones at the same key). -/
def flattenRows (rows : List Row) : List (String × JSVal) :=
  rows.foldl
    (fun acc row =>
      if !(row.type == "array") && !(row.type == "object") then
        if !(row.key == "") then assocSet acc row.key row.value else acc
      else acc)
    []

/-- `normalizeNodeData` (lines 11–22): `"{}"` for a missing/empty row list,
the bare value coerced to a string for a single keyless row, otherwise the
flattened object serialized with 2-space indentation. -/
def normalizeNodeData (nodeRows : List Row) : String :=
  match nodeRows with
  | [] => "\x7b\x7d"
  | [r] =>
    if r.key = "" then jsToString r.value
    else jsonStringify (JSVal.obj (flattenRows [r]))
  | rows => jsonStringify (JSVal.obj (flattenRows rows))

/-- `JSON.stringify` of one path segment (compact form, as used by the
re-selection comparison `JSON.stringify(n.path)`). -/
def segSer : Seg → String
  | Seg.key s => String.mk (serStrChars s)
  | Seg.idx n => natKey n

/-- `findPath` (lines 150 / 367): `p ? JSON.stringify(p) : ""` — compact
serialization of the path array, the empty string for a missing path. -/
def pathSer : Option (List Seg) → String
  | none => ""
  | some l => "[" ++ String.intercalate "," (l.map segSer) ++ "]"

/-- A graph node as this component consumes it: its path and its display
rows. -/
structure GraphNode where
  path : Option (List Seg)
  text : List Row

/-- The state `handleSave` reads and writes: the graph store's node list and
selection, the file store's text (`getContents`/`setContents`), the JSON
store's text (`setJson`), the local `editing`/`editedText` state, and the
console error log. -/
structure SaveState where
  nodes : List GraphNode
  selected : Option GraphNode
  contents : String
  jsonStr : String
  editing : Bool
  editedText : String
  errorLog : List String

/-- Lines 338–344: parse the edited text as JSON, falling back to the raw
string on failure. -/
def parseOrString (t : String) : JSVal :=
  match jsonParse t with
  | some v => v
  | none => JSVal.str t

/-- The body of the `try` block up to `newStr` (lines 347–359): read the
current document text, parse it, read the existing value at the node's path,
merge `details`/`nutrients` forward, write the new value at the path and
re-serialize with 2-space indentation.  `none` is the thrown-exception path. -/
def saveAttempt (current : String) (path : Option (List Seg))
    (newValue : JSVal) : Option String :=
  match jsonParse current with
  | none => none
  | some parsed =>
    let merged := mergePreserve (getAtPathOpt parsed path) newValue
    match setAtPathOpt parsed path merged with
    | none => none
    | some updated => some (jsonStringify updated)

/-- `handleSave` (lines 334–378): build the candidate value from the edited
text, run the try-block; on success push the new text to the file store and
the JSON store, re-select the first node whose serialized path matches, and
leave edit mode; on a thrown error only log (the `catch` block does nothing
else). -/
def handleSave (s : SaveState) : SaveState :=
  match s.selected with
  | none => s
  | some nodeData =>
    let newValue := parseOrString s.editedText
    match saveAttempt s.contents nodeData.path newValue with
    | none => { s with errorLog := s.errorLog ++ ["Failed to save node edit"] }
    | some newStr =>
      let target := s.nodes.find? (fun n => pathSer n.path == pathSer nodeData.path)
      { s with
          contents := newStr
          jsonStr := newStr
          selected := (match target with
                       | some t => some t
                       | none => s.selected)
          editing := false
          editedText := "" }

/-! ## Write–read lemmas and the `setAtPath`/`getAtPath` round-trip -/

def isContainer : JSVal → Bool
  | JSVal.arr _ _ => true
  | JSVal.obj _ => true
  | _ => false

/-- A traversed position that is absent (`undefined`) or a container. -/
def absentOrContainer (v : JSVal) : Bool := isUndefV v || isContainer v

/-- Every intermediate position the path traverses through the document is
absent or a container (the proper non-empty prefixes of the path). -/
def pathOk (doc : JSVal) (path : List Seg) : Bool :=
  (List.range path.length).all
    (fun i => i == 0 || absentOrContainer (getAtPath doc (path.take i)))

/-- Every character is whitespace (for `skipWs` absorption). -/
def allWs (l : List Char) : Bool := l.all wsCh

/-- The input does not begin with a digit (so a number token before it parses
exactly). -/
def noDig : List Char → Bool
  | [] => true
  | c :: _ => !c.isDigit

theorem assocGet_assocSet_self (l : List (String × JSVal)) (k : String) (v : JSVal) :
    assocGet (assocSet l k v) k = some v := by
  induction l with
  | nil => simp [assocSet, assocGet]
  | cons p rest ih =>
    obtain ⟨k', v'⟩ := p
    by_cases h : k' = k
    · simp [assocSet, assocGet, h]
    · simp [assocSet, assocGet, h, ih]

theorem assocGet_assocSet_ne (l : List (String × JSVal)) (k k' : String) (v : JSVal)
    (h : k' ≠ k) : assocGet (assocSet l k' v) k = assocGet l k := by
  induction l with
  | nil => simp [assocSet, assocGet, h]
  | cons p rest ih =>
    obtain ⟨k₀, v₀⟩ := p
    by_cases h0 : k₀ = k'
    · subst h0
      simp [assocSet, assocGet, h]
    · simp [assocSet, assocGet, h0, ih]

theorem listSet_get_self (xs : List JSVal) (n : Nat) (v : JSVal) :
    (listSet xs n v)[n]?.getD JSVal.undef = v := by
  induction xs generalizing n with
  | nil =>
    induction n with
    | zero => simp [listSet]
    | succ m ih => simpa [listSet] using ih
  | cons x xs ih =>
    cases n with
    | zero => simp [listSet]
    | succ m => simpa [listSet] using ih m

/-- A successful property write lands on a container. -/
theorem jsWrite_container (cur : JSVal) (s : Seg) (w u : JSVal)
    (h : jsWrite cur s w = some u) : isContainer u = true := by
  cases cur with
  | obj fs =>
    cases s <;> simp only [jsWrite, Option.some_inj] at h <;> subst h <;> rfl
  | arr xs props =>
    cases s with
    | idx n =>
      simp only [jsWrite, Option.some_inj] at h
      subst h
      rfl
    | key k =>
      rcases hc : canonNat k with _ | n <;> simp only [jsWrite, hc, Option.some_inj] at h <;>
        subst h <;> rfl
  | undef => cases s <;> simp [jsWrite] at h
  | null => cases s <;> simp [jsWrite] at h
  | bool b => cases s <;> simp [jsWrite] at h
  | num n => cases s <;> simp [jsWrite] at h
  | str s0 => cases s <;> simp [jsWrite] at h

theorem getAtPath_nil (v : JSVal) : getAtPath v [] = v := by
  cases v <;> rfl

/-- Reading back the segment just written returns the written value. -/
theorem jsIndex_jsWrite (cur : JSVal) (s : Seg) (w u : JSVal)
    (h : jsWrite cur s w = some u) : jsIndex u s = w := by
  cases cur with
  | obj fs =>
    cases s with
    | key k =>
      simp only [jsWrite, Option.some_inj] at h
      subst h
      simp [jsIndex, assocGet_assocSet_self]
    | idx n =>
      simp only [jsWrite, Option.some_inj] at h
      subst h
      simp [jsIndex, assocGet_assocSet_self]
  | arr xs props =>
    cases s with
    | idx n =>
      simp only [jsWrite, Option.some_inj] at h
      subst h
      simp [jsIndex, listSet_get_self]
    | key k =>
      rcases hc : canonNat k with _ | n <;> simp only [jsWrite, hc, Option.some_inj] at h <;>
        subst h <;> simp [jsIndex, hc, assocGet_assocSet_self, listSet_get_self]
  | undef => cases s <;> simp [jsWrite] at h
  | null => cases s <;> simp [jsWrite] at h
  | bool b => cases s <;> simp [jsWrite] at h
  | num n => cases s <;> simp [jsWrite] at h
  | str s0 => cases s <;> simp [jsWrite] at h

/-- Unfolding `getAtPath` one step on anything but `null`/`undefined`. -/
theorem getAtPath_cons (cur : JSVal) (s : Seg) (t : List Seg)
    (h1 : cur ≠ JSVal.null) (h2 : cur ≠ JSVal.undef) :
    getAtPath cur (s :: t) = getAtPath (jsIndex cur s) t := by
  cases cur <;> simp [getAtPath] at h1 h2 ⊢

/-- A successful `setGo` wrote the value where `getAtPath` finds it again. -/
theorem setGo_some_get (p : List Seg) (cur v u : JSVal)
    (h : setGo cur p v = some u) : getAtPath u p = v := by
  induction p generalizing cur u with
  | nil =>
    simp only [setGo, Option.some_inj] at h
    subst h
    exact getAtPath_nil v
  | cons s t ih =>
    cases t with
    | nil =>
      simp only [setGo] at h
      have hcont := jsWrite_container cur s v u h
      have hrd := jsIndex_jsWrite cur s v u h
      rw [getAtPath_cons u s [] (by cases u <;> simp_all [isContainer])
            (by cases u <;> simp_all [isContainer]), getAtPath_nil]
      exact hrd
    | cons nx rest =>
      simp only [setGo] at h
      rcases hgo : setGo
          (match jsIndex cur s with
           | JSVal.undef => defaultFor nx
           | JSVal.null => defaultFor nx
           | c => c) (nx :: rest) v with _ | child'
      · rw [hgo] at h
        exact absurd h (by simp)
      · rw [hgo] at h
        have hcont := jsWrite_container cur s child' u h
        have hrd := jsIndex_jsWrite cur s child' u h
        rw [getAtPath_cons u s (nx :: rest) (by cases u <;> simp_all [isContainer])
              (by cases u <;> simp_all [isContainer]), hrd]
        exact ih _ child' hgo

/-- A successful `setAtPath` wrote the value where `getAtPath` finds it. -/
theorem setAtPath_some_get (doc : JSVal) (p : List Seg) (v u : JSVal)
    (h : setAtPath doc p v = some u) : getAtPath u p = v := by
  cases p with
  | nil =>
    simp only [setAtPath, Option.some_inj] at h
    subst h
    exact getAtPath_nil v
  | cons s t => exact setGo_some_get (s :: t) (topCopy doc) v u h

/-- The optional-path version used by the save pipeline. -/
theorem setAtPathOpt_some_get (doc : JSVal) (p : Option (List Seg)) (v u : JSVal)
    (h : setAtPathOpt doc p v = some u) : getAtPathOpt u p = v := by
  cases p with
  | none =>
    simp only [setAtPathOpt, Option.some_inj] at h
    subst h
    rfl
  | some p0 => exact setAtPath_some_get doc p0 v u h


/-! ## The decimal numeral facts behind property-key coercion -/

theorem digitCh_isDigit (d : Nat) (h : d < 10) : Char.isDigit (digitCh d) = true := by
  interval_cases d <;> decide

theorem digitCh_ne_zero (d : Nat) (h : d < 10) (h0 : d ≠ 0) : digitCh d ≠ '0' := by
  interval_cases d <;> simp_all <;> decide

theorem chVal_digitCh (d : Nat) (h : d < 10) : chVal (digitCh d) = d := by
  interval_cases d <;> decide

theorem natKeyAux_eq (fuel n : Nat) (h : n ≤ fuel) :
    natKeyAux fuel n = (Nat.digits 10 n).map digitCh := by
  induction fuel generalizing n with
  | zero =>
    have : n = 0 := Nat.le_zero.mp h
    subst this
    simp [natKeyAux]
  | succ f ih =>
    cases n with
    | zero => simp [natKeyAux]
    | succ m =>
      rw [natKeyAux, Nat.digits_def' (by norm_num : (1:Nat) < 10) (Nat.succ_pos m)]
      have hdiv : (m + 1) / 10 ≤ f := by
        have := Nat.div_lt_self (Nat.succ_pos m) (by norm_num : (1:Nat) < 10)
        omega
      rw [ih _ hdiv]
      rfl

theorem natKeyChars_eq (n : Nat) (h : n ≠ 0) :
    natKeyChars n = ((Nat.digits 10 n).map digitCh).reverse := by
  cases n with
  | zero => exact absurd rfl h
  | succ m =>
    show (natKeyAux (m + 1) (m + 1)).reverse = _
    rw [natKeyAux_eq (m + 1) (m + 1) (Nat.le_refl _)]

theorem natKeyChars_ne_nil (n : Nat) : natKeyChars n ≠ [] := by
  cases n with
  | zero => simp [natKeyChars]
  | succ m =>
    rw [natKeyChars_eq (m + 1) (Nat.succ_ne_zero m)]
    simp [Nat.digits_ne_nil_iff_ne_zero]

theorem natKeyChars_all_digit (n : Nat) :
    (natKeyChars n).all Char.isDigit = true := by
  cases n with
  | zero => decide
  | succ m =>
    rw [natKeyChars_eq (m + 1) (Nat.succ_ne_zero m)]
    simp only [List.all_eq_true, List.mem_reverse, List.mem_map]
    rintro c ⟨d, hd, rfl⟩
    exact digitCh_isDigit d (Nat.digits_lt_base (by norm_num) hd)

theorem natKeyChars_head_zero (n : Nat) (c : Char) (cs : List Char)
    (h : natKeyChars n = c :: cs) (hc : c = '0') : n = 0 := by
  by_contra hn
  rw [natKeyChars_eq n hn] at h
  have hh : ((Nat.digits 10 n).map digitCh).reverse.head? = some c := by
    rw [h]; rfl
  rw [List.head?_reverse] at hh
  have hne : (Nat.digits 10 n).map digitCh ≠ [] := by
    simp [Nat.digits_ne_nil_iff_ne_zero, hn]
  rw [List.getLast?_eq_getLast_of_ne_nil hne, Option.some_inj,
      List.getLast_map digitCh (Nat.digits 10 n) hne] at hh
  have hlast := Nat.getLast_digit_ne_zero 10 hn
  have hlt : ∀ hx, (Nat.digits 10 n).getLast hx < 10 := fun hx =>
    Nat.digits_lt_base (by norm_num) (List.getLast_mem hx)
  exact digitCh_ne_zero _ (hlt _) hlast (hh.trans hc)

theorem digitsToNat_natKeyChars (n : Nat) : digitsToNat (natKeyChars n) = n := by
  cases n with
  | zero => decide
  | succ m =>
    rw [natKeyChars_eq (m + 1) (Nat.succ_ne_zero m), digitsToNat,
        List.map_reverse, List.reverse_reverse, List.map_map]
    have hmap : (Nat.digits 10 (m + 1)).map (chVal ∘ digitCh) = Nat.digits 10 (m + 1) := by
      have hcongr : (Nat.digits 10 (m + 1)).map (chVal ∘ digitCh)
          = (Nat.digits 10 (m + 1)).map id :=
        List.map_congr_left
          (fun d hd => chVal_digitCh d (Nat.digits_lt_base (by norm_num) hd))
      rw [hcongr, List.map_id]
    rw [hmap, Nat.ofDigits_digits]

/-- The canonical-numeral reading inverts JS number→string key coercion. -/
theorem canonNat_natKey (n : Nat) : canonNat (natKey n) = some n := by
  have hdata : (natKey n).data = natKeyChars n := rfl
  rcases hne : natKeyChars n with _ | ⟨c, cs⟩
  · exact absurd hne (natKeyChars_ne_nil n)
  · have hall : (c :: cs).all Char.isDigit = true := by
      rw [← hne]; exact natKeyChars_all_digit n
    have hlead : (c = '0' && !cs.isEmpty) = false := by
      by_cases hc : c = '0'
      · have h0 : n = 0 := natKeyChars_head_zero n c cs hne hc
        subst h0
        have : natKeyChars 0 = ['0'] := rfl
        rw [this] at hne
        obtain ⟨rfl, rfl⟩ : c = '0' ∧ cs = [] := by
          constructor <;> injection hne with h1 h2 <;> simp_all
        rfl
      · simp [hc]
    unfold canonNat
    rw [hdata, hne]
    simp only [hall, if_true, hlead, Bool.false_eq_true, if_false]
    rw [← hne, digitsToNat_natKeyChars]

/-! ## Existence of `setAtPath` under well-formed paths -/

theorem getAtPath_undef (t : List Seg) : getAtPath JSVal.undef t = JSVal.undef := by
  cases t <;> rfl

theorem jsIndex_empty_container (cur : JSVal) (s : Seg)
    (h : cur = JSVal.arr [] [] ∨ cur = JSVal.obj []) : jsIndex cur s = JSVal.undef := by
  rcases h with rfl | rfl <;> cases s <;>
    simp [jsIndex, assocGet] <;> rcases canonNat _ with _ | n <;> simp [assocGet]

theorem getAtPath_default (nx : Seg) (q : List Seg) (hq : q ≠ []) :
    getAtPath (defaultFor nx) q = JSVal.undef := by
  cases q with
  | nil => exact absurd rfl hq
  | cons a t =>
    have hcont : isContainer (defaultFor nx) = true := by cases nx <;> rfl
    rw [getAtPath_cons _ a t (by cases nx <;> simp [defaultFor])
          (by cases nx <;> simp [defaultFor]),
        jsIndex_empty_container _ a (by cases nx <;> simp [defaultFor]),
        getAtPath_undef]

theorem jsWrite_isSome_of_container (cur : JSVal) (s : Seg) (v : JSVal)
    (h : isContainer cur = true) : (jsWrite cur s v).isSome = true := by
  cases cur <;> simp [isContainer] at h <;> cases s <;>
    simp [jsWrite] <;> rcases canonNat _ with _ | n <;> simp

theorem setGo_isSome (p : List Seg) (cur v : JSVal)
    (hcur : isContainer cur = true) (hne : p ≠ [])
    (hok : ∀ i, 1 ≤ i → i < p.length →
      absentOrContainer (getAtPath cur (p.take i)) = true) :
    (setGo cur p v).isSome = true := by
  induction p generalizing cur with
  | nil => exact absurd rfl hne
  | cons s t ih =>
    cases t with
    | nil =>
      show (jsWrite cur s v).isSome = true
      exact jsWrite_isSome_of_container cur s v hcur
    | cons nx rest =>
      have hcne1 : cur ≠ JSVal.null := by
        intro h
        rw [h] at hcur
        exact absurd hcur (by decide)
      have hcne2 : cur ≠ JSVal.undef := by
        intro h
        rw [h] at hcur
        exact absurd hcur (by decide)
      have h1 : absentOrContainer (jsIndex cur s) = true := by
        have h := hok 1 (Nat.le_refl 1) (by simp)
        rw [List.take_succ_cons, List.take_zero,
            getAtPath_cons cur s [] hcne1 hcne2, getAtPath_nil] at h
        exact h
      have hstep : ∀ child,
          (match jsIndex cur s with
           | JSVal.undef => defaultFor nx
           | JSVal.null => defaultFor nx
           | c => c) = child →
          isContainer child = true →
          (setGo cur (s :: nx :: rest) v).isSome = true := by
        intro child hch hcont
        have hokc : ∀ i, 1 ≤ i → i < (nx :: rest).length →
            absentOrContainer (getAtPath child ((nx :: rest).take i)) = true := by
          intro i hi1 hi2
          rcases hidx : jsIndex cur s with _ | _ | b | m | s0 | ⟨xs, props⟩ | fs
          · have hch2 : defaultFor nx = child := by
              rw [hidx] at hch
              exact hch
            rw [← hch2, getAtPath_default nx _ (by cases i with
                  | zero => exact absurd hi1 (by decide)
                  | succ j => simp)]
            rfl
          · rw [hidx] at h1
            exact absurd h1 (by decide)
          · rw [hidx] at h1
            simp [absentOrContainer, isUndefV, isContainer] at h1
          · rw [hidx] at h1
            simp [absentOrContainer, isUndefV, isContainer] at h1
          · rw [hidx] at h1
            simp [absentOrContainer, isUndefV, isContainer] at h1
          · have hch2 : JSVal.arr xs props = child := by
              rw [hidx] at hch
              exact hch
            have h := hok (i + 1) (by omega)
              (by simp only [List.length_cons] at hi2 ⊢; omega)
            rw [List.take_succ_cons, getAtPath_cons cur s _ hcne1 hcne2, hidx, hch2] at h
            exact h
          · have hch2 : JSVal.obj fs = child := by
              rw [hidx] at hch
              exact hch
            have h := hok (i + 1) (by omega)
              (by simp only [List.length_cons] at hi2 ⊢; omega)
            rw [List.take_succ_cons, getAtPath_cons cur s _ hcne1 hcne2, hidx, hch2] at h
            exact h
        have hsome := ih child hcont (by simp) hokc
        rcases hgo : setGo child (nx :: rest) v with _ | child'
        · rw [hgo] at hsome
          exact absurd hsome (by simp)
        · have hred : setGo cur (s :: nx :: rest) v = jsWrite cur s child' := by
            show (match setGo
                (match jsIndex cur s with
                 | JSVal.undef => defaultFor nx
                 | JSVal.null => defaultFor nx
                 | c => c) (nx :: rest) v with
              | none => none
              | some child0 => jsWrite cur s child0) = jsWrite cur s child'
            rw [hch, hgo]
          rw [hred]
          exact jsWrite_isSome_of_container cur s child' hcur
      rcases hidx : jsIndex cur s with _ | _ | b | m | s0 | ⟨xs, props⟩ | fs
      · exact hstep (defaultFor nx) (by rw [hidx]) (by cases nx with
          | key k => rfl
          | idx n => rfl)
      · rw [hidx] at h1
        exact absurd h1 (by decide)
      · rw [hidx] at h1
        simp [absentOrContainer, isUndefV, isContainer] at h1
      · rw [hidx] at h1
        simp [absentOrContainer, isUndefV, isContainer] at h1
      · rw [hidx] at h1
        simp [absentOrContainer, isUndefV, isContainer] at h1
      · exact hstep (JSVal.arr xs props) (by rw [hidx]) rfl
      · exact hstep (JSVal.obj fs) (by rw [hidx]) rfl

theorem assocGet_map_natKey (l : List Nat) (f : Nat → JSVal) (k : String) (v : JSVal)
    (h : assocGet (l.map (fun i => (natKey i, f i))) k = some v) :
    ∃ i ∈ l, k = natKey i ∧ v = f i := by
  induction l with
  | nil => simp [assocGet] at h
  | cons a t ih =>
    simp only [List.map_cons, assocGet] at h
    by_cases ha : natKey a = k
    · rw [if_pos ha] at h
      exact ⟨a, by simp, ha.symm, (Option.some_inj.mp h).symm⟩
    · rw [if_neg ha] at h
      obtain ⟨i, hi, hk, hv⟩ := ih h
      exact ⟨i, by simp [hi], hk, hv⟩

theorem assocGet_charFields (s0 : String) (k : String) (v : JSVal)
    (h : assocGet (charFields s0) k = some v) :
    ∃ i, i < s0.length ∧ k = natKey i ∧
      v = JSVal.str (String.mk [s0.data.getD i ' ']) := by
  unfold charFields at h
  obtain ⟨i, hi, hk, hv⟩ := assocGet_map_natKey _ _ _ _ h
  exact ⟨i, List.mem_range.mp hi, hk, hv⟩

/-- `natKey` is injective (both numerals read back canonically). -/
theorem natKey_inj (m n : Nat) (h : natKey m = natKey n) : m = n := by
  have h1 := canonNat_natKey m
  rw [h, canonNat_natKey n] at h1
  exact (Option.some_inj.mp h1).symm

/-- The top-level copy preserves each traversed position being absent or a
container: positions reached through dropped array expando properties, or
through the character-object a spread string becomes, are absent in the copy. -/
theorem topCopy_absent (doc : JSVal) (s : Seg) (t : List Seg)
    (h : absentOrContainer (getAtPath doc (s :: t)) = true) :
    absentOrContainer (getAtPath (topCopy doc) (s :: t)) = true := by
  have hempty : ∀ u : JSVal, u = JSVal.obj [] →
      absentOrContainer (getAtPath u (s :: t)) = true := by
    rintro u rfl
    rw [getAtPath_cons _ s t (by simp) (by simp),
        jsIndex_empty_container _ s (Or.inr rfl), getAtPath_undef]
    rfl
  cases doc with
  | undef => exact hempty _ rfl
  | null => exact hempty _ rfl
  | bool b => exact hempty _ rfl
  | num m => exact hempty _ rfl
  | obj fs => exact h
  | arr xs props =>
    show absentOrContainer (getAtPath (JSVal.arr xs []) (s :: t)) = true
    cases s with
    | idx n =>
      rw [getAtPath_cons _ _ t (by simp) (by simp)] at h ⊢
      exact h
    | key k =>
      rcases hc : canonNat k with _ | n
      · rw [getAtPath_cons _ _ t (by simp) (by simp)]
        have : jsIndex (JSVal.arr xs []) (Seg.key k) = JSVal.undef := by
          simp [jsIndex, hc, assocGet]
        rw [this, getAtPath_undef]
        rfl
      · rw [getAtPath_cons _ _ t (by simp) (by simp)] at h ⊢
        have e1 : jsIndex (JSVal.arr xs props) (Seg.key k)
            = (xs.get? n).getD JSVal.undef := by simp [jsIndex, hc]
        have e2 : jsIndex (JSVal.arr xs []) (Seg.key k)
            = (xs.get? n).getD JSVal.undef := by simp [jsIndex, hc]
        rw [e1] at h
        rw [e2]
        exact h
  | str s0 =>
    show absentOrContainer (getAtPath (JSVal.obj (charFields s0)) (s :: t)) = true
    rw [getAtPath_cons _ s t (by simp) (by simp)]
    have hkey : ∀ k' : String,
        (assocGet (charFields s0) k').getD JSVal.undef = JSVal.undef ∨
        ∃ i, i < s0.length ∧ k' = natKey i ∧
          (assocGet (charFields s0) k').getD JSVal.undef
            = JSVal.str (String.mk [s0.data.getD i ' ']) := by
      intro k'
      rcases hg : assocGet (charFields s0) k' with _ | v'
      · exact Or.inl rfl
      · obtain ⟨i, hi, hk, hv⟩ := assocGet_charFields s0 k' v' hg
        exact Or.inr ⟨i, hi, hk, by simp [hv]⟩
    cases s with
    | idx n =>
      have hidx : jsIndex (JSVal.obj (charFields s0)) (Seg.idx n)
          = (assocGet (charFields s0) (natKey n)).getD JSVal.undef := rfl
      rcases hkey (natKey n) with hu | ⟨i, hi, hk, hv⟩
      · rw [hidx, hu, getAtPath_undef]
        rfl
      · have hni : n = i := natKey_inj n i hk
        subst hni
        have horig : jsIndex (JSVal.str s0) (Seg.idx n)
            = JSVal.str (String.mk [s0.data.getD n ' ']) := by
          have hlen : n < s0.data.length := hi
          have hx : s0.data[n]? = some (s0.data.getD n ' ') := by
            rcases hy : s0.data[n]? with _ | c
            · rw [List.getElem?_eq_none_iff] at hy
              omega
            · rw [List.getD_eq_getElem?_getD, hy]
              rfl
          show (match s0.data.get? n with
                | some c => JSVal.str (String.mk [c])
                | none => JSVal.undef) = _
          rw [List.get?_eq_getElem?, hx]
        rw [getAtPath_cons _ _ t (by simp) (by simp), horig] at h
        rw [hidx, hv]
        exact h
    | key k =>
      have hidx : jsIndex (JSVal.obj (charFields s0)) (Seg.key k)
          = (assocGet (charFields s0) k).getD JSVal.undef := rfl
      rcases hkey k with hu | ⟨i, hi, hk, hv⟩
      · rw [hidx, hu, getAtPath_undef]
        rfl
      · subst hk
        have hcn : canonNat (natKey i) = some i := canonNat_natKey i
        have horig : jsIndex (JSVal.str s0) (Seg.key (natKey i))
            = JSVal.str (String.mk [s0.data.getD i ' ']) := by
          have hlen : i < s0.data.length := hi
          have hx : s0.data[i]? = some (s0.data.getD i ' ') := by
            rcases hy : s0.data[i]? with _ | c
            · rw [List.getElem?_eq_none_iff] at hy
              omega
            · rw [List.getD_eq_getElem?_getD, hy]
              rfl
          show (match canonNat (natKey i) with
                | some n =>
                  match s0.data.get? n with
                  | some c => JSVal.str (String.mk [c])
                  | none => JSVal.undef
                | none => JSVal.undef) = _
          rw [hcn]
          show (match s0.data.get? i with
                | some c => JSVal.str (String.mk [c])
                | none => JSVal.undef) = _
          rw [List.get?_eq_getElem?, hx]
        rw [getAtPath_cons _ _ t (by simp) (by simp), horig] at h
        rw [hidx, hv]
        exact h

theorem topCopy_container (doc : JSVal) : isContainer (topCopy doc) = true := by
  cases doc <;> rfl

theorem setAtPath_isSome (doc : JSVal) (p : List Seg) (v : JSVal) (hne : p ≠ [])
    (hok : pathOk doc p = true) : (setAtPath doc p v).isSome = true := by
  cases p with
  | nil => exact absurd rfl hne
  | cons s t =>
    show (setGo (topCopy doc) (s :: t) v).isSome = true
    refine setGo_isSome (s :: t) (topCopy doc) v (topCopy_container doc) (by simp) ?_
    intro i hi1 hi2
    have hdoc : absentOrContainer (getAtPath doc ((s :: t).take i)) = true := by
      have := List.all_eq_true.mp hok i (List.mem_range.mpr hi2)
      cases i with
      | zero => exact absurd hi1 (by decide)
      | succ j => simpa using this
    cases i with
    | zero => exact absurd hi1 (by decide)
    | succ j =>
      rw [List.take_succ_cons] at hdoc ⊢
      exact topCopy_absent doc s (t.take j) hdoc

theorem getAtPath_null (p : List Seg) (hp : p ≠ []) :
    getAtPath JSVal.null p = JSVal.undef := by
  cases p with
  | nil => exact absurd rfl hp
  | cons s t => rfl

/-- C8: for every document, every non-empty path whose traversed intermediate
positions are each absent or a container, and every value `v`, `getAtPath`
after `setAtPath` at that path returns `v`; for the empty path `setAtPath`
returns `v` itself in place of the document. -/
theorem set_get_roundtrip (doc : JSVal) (path : List Seg) (v : JSVal) :
    (path = [] → setAtPath doc path v = some v) ∧
    (path ≠ [] → pathOk doc path = true →
      ∃ u, setAtPath doc path v = some u ∧ getAtPath u path = v) := by
  constructor
  · intro h
    subst h
    rfl
  · intro hne hok
    have hs := setAtPath_isSome doc path v hne hok
    rcases hu : setAtPath doc path v with _ | u
    · rw [hu] at hs
      exact absurd hs (by simp)
    · exact ⟨u, rfl, setAtPath_some_get doc path v u hu⟩

/-- Witness for C8 at a concrete document and path. -/
theorem set_get_roundtrip_witness :
    ∃ u, setAtPath (JSVal.obj [("b", JSVal.num 1)]) [Seg.key "a", Seg.idx 2]
        (JSVal.str "v") = some u ∧
      getAtPath u [Seg.key "a", Seg.idx 2] = JSVal.str "v" :=
  (set_get_roundtrip (JSVal.obj [("b", JSVal.num 1)]) [Seg.key "a", Seg.idx 2]
    (JSVal.str "v")).2 (by simp) (by rfl)

/-- C9: `getAtPath` is total; any `null`/`undefined` intermediate makes it
return `undefined`, and an empty or missing path returns the document. -/
theorem getAtPath_total (doc : JSVal) (path : List Seg) :
    getAtPathOpt doc none = doc ∧
    getAtPath doc [] = doc ∧
    (∀ i, i < path.length →
      (getAtPath doc (path.take i) = JSVal.null ∨
       getAtPath doc (path.take i) = JSVal.undef) →
      getAtPath doc path = JSVal.undef) := by
  refine ⟨rfl, getAtPath_nil doc, ?_⟩
  induction path generalizing doc with
  | nil =>
    intro i hi
    exact absurd hi (by simp)
  | cons s t ih =>
    intro i hi hnull
    by_cases h1 : doc = JSVal.null
    · subst h1
      exact getAtPath_null (s :: t) (by simp)
    · by_cases h2 : doc = JSVal.undef
      · subst h2
        exact getAtPath_undef (s :: t)
      · cases i with
        | zero =>
          rw [List.take_zero, getAtPath_nil] at hnull
          rcases hnull with h | h
          · exact absurd h h1
          · exact absurd h h2
        | succ j =>
          rw [List.take_succ_cons, getAtPath_cons doc s _ h1 h2] at hnull
          rw [getAtPath_cons doc s t h1 h2]
          exact ih (jsIndex doc s) j (by simpa using hi) hnull

/-- Witness for C9 at a concrete document and path with a `null`
intermediate. -/
theorem getAtPath_total_witness :
    getAtPath (JSVal.obj [("a", JSVal.null)]) [Seg.key "a", Seg.key "b"]
      = JSVal.undef :=
  (getAtPath_total (JSVal.obj [("a", JSVal.null)]) [Seg.key "a", Seg.key "b"]).2.2
    1 (by decide) (Or.inl (by rfl))

/-! ## The merge and the save pipeline -/

/-- A non-object candidate value is never merged into. -/
theorem mergePreserve_str (ex : JSVal) (t : String) :
    mergePreserve ex (JSVal.str t) = JSVal.str t := by
  simp [mergePreserve, isObjTy]

theorem jsIndex_obj_key (l : List (String × JSVal)) (k : String) :
    jsIndex (JSVal.obj l) (Seg.key k) = (assocGet l k).getD JSVal.undef := rfl

/-- A truthy `details` on the prior object survives the merge when the new
object's `details` is `undefined`. -/
theorem mergePreserve_obj_details (ef nf : List (String × JSVal)) (d : JSVal)
    (hd : assocGet ef "details" = some d) (ht : truthy d = true)
    (hn : (assocGet nf "details").getD JSVal.undef = JSVal.undef) :
    jsIndex (mergePreserve (JSVal.obj ef) (JSVal.obj nf)) (Seg.key "details") = d := by
  have hguard : (truthy (JSVal.obj ef) && isObjTy (JSVal.obj ef) &&
      isObjTy (JSVal.obj nf) && !isNullV (JSVal.obj nf)) = true := rfl
  have hcond : (truthy (jsIndex (JSVal.obj ef) (Seg.key "details")) &&
      isUndefV (jsIndex (JSVal.obj nf) (Seg.key "details"))) = true := by
    rw [jsIndex_obj_key, jsIndex_obj_key, hd, Option.getD_some, hn]
    simp [ht, isUndefV]
  have hn1 : jsIndex (JSVal.obj ef) (Seg.key "details") = d := by
    rw [jsIndex_obj_key, hd, Option.getD_some]
  unfold mergePreserve
  rw [hguard, if_pos rfl, hcond, if_pos rfl, hn1]
  have hwr : jsWriteD (JSVal.obj nf) (Seg.key "details") d
      = JSVal.obj (assocSet nf "details" d) := rfl
  rw [hwr]
  by_cases hc2 : (truthy (jsIndex (JSVal.obj ef) (Seg.key "nutrients")) &&
      isUndefV (jsIndex (JSVal.obj (assocSet nf "details" d)) (Seg.key "nutrients"))) = true
  · rw [if_pos hc2]
    have : jsWriteD (JSVal.obj (assocSet nf "details" d)) (Seg.key "nutrients")
        (jsIndex (JSVal.obj ef) (Seg.key "nutrients"))
        = JSVal.obj (assocSet (assocSet nf "details" d) "nutrients"
            (jsIndex (JSVal.obj ef) (Seg.key "nutrients"))) := rfl
    rw [this, jsIndex_obj_key,
        assocGet_assocSet_ne _ _ _ _ (by decide : ("nutrients" : String) ≠ "details"),
        assocGet_assocSet_self, Option.getD_some]
  · rw [if_neg hc2, jsIndex_obj_key, assocGet_assocSet_self, Option.getD_some]

/-- A truthy `nutrients` on the prior object survives the merge when the new
object's `nutrients` is `undefined`. -/
theorem mergePreserve_obj_nutrients (ef nf : List (String × JSVal)) (d : JSVal)
    (hd : assocGet ef "nutrients" = some d) (ht : truthy d = true)
    (hn : (assocGet nf "nutrients").getD JSVal.undef = JSVal.undef) :
    jsIndex (mergePreserve (JSVal.obj ef) (JSVal.obj nf)) (Seg.key "nutrients") = d := by
  have hguard : (truthy (JSVal.obj ef) && isObjTy (JSVal.obj ef) &&
      isObjTy (JSVal.obj nf) && !isNullV (JSVal.obj nf)) = true := rfl
  unfold mergePreserve
  rw [hguard, if_pos rfl]
  have hnutr : jsIndex (JSVal.obj ef) (Seg.key "nutrients") = d := by
    rw [jsIndex_obj_key, hd, Option.getD_some]
  by_cases hc1 : (truthy (jsIndex (JSVal.obj ef) (Seg.key "details")) &&
      isUndefV (jsIndex (JSVal.obj nf) (Seg.key "details"))) = true
  · rw [if_pos hc1]
    have hwr : jsWriteD (JSVal.obj nf) (Seg.key "details")
        (jsIndex (JSVal.obj ef) (Seg.key "details"))
        = JSVal.obj (assocSet nf "details"
            (jsIndex (JSVal.obj ef) (Seg.key "details"))) := rfl
    rw [hwr]
    have hn1 : jsIndex (JSVal.obj (assocSet nf "details"
        (jsIndex (JSVal.obj ef) (Seg.key "details")))) (Seg.key "nutrients")
        = JSVal.undef := by
      rw [jsIndex_obj_key,
          assocGet_assocSet_ne _ _ _ _ (by decide : ("details" : String) ≠ "nutrients")]
      exact hn
    simp only [hnutr, hn1]
    have hcond : (truthy d && isUndefV JSVal.undef) = true := by simp [ht, isUndefV]
    rw [hcond, if_pos rfl]
    have : jsWriteD (JSVal.obj (assocSet nf "details"
        (jsIndex (JSVal.obj ef) (Seg.key "details")))) (Seg.key "nutrients") d
        = JSVal.obj (assocSet (assocSet nf "details"
            (jsIndex (JSVal.obj ef) (Seg.key "details"))) "nutrients" d) := rfl
    rw [this, jsIndex_obj_key, assocGet_assocSet_self, Option.getD_some]
  · rw [if_neg hc1]
    have hn2 : jsIndex (JSVal.obj nf) (Seg.key "nutrients") = JSVal.undef := by
      rw [jsIndex_obj_key]
      exact hn
    simp only [hnutr, hn2]
    have hcond : (truthy d && isUndefV JSVal.undef) = true := by simp [ht, isUndefV]
    rw [hcond, if_pos rfl]
    have : jsWriteD (JSVal.obj nf) (Seg.key "nutrients") d
        = JSVal.obj (assocSet nf "nutrients" d) := rfl
    rw [this, jsIndex_obj_key, assocGet_assocSet_self, Option.getD_some]

theorem saveAttempt_some (current : String) (path : Option (List Seg))
    (newValue parsed u : JSVal)
    (hparse : jsonParse current = some parsed)
    (hset : setAtPathOpt parsed path
      (mergePreserve (getAtPathOpt parsed path) newValue) = some u) :
    saveAttempt current path newValue = some (jsonStringify u) := by
  unfold saveAttempt
  rw [hparse]
  simp only [hset]

theorem saveAttempt_none_of_parse_none (current : String) (path : Option (List Seg))
    (newValue : JSVal) (hparse : jsonParse current = none) :
    saveAttempt current path newValue = none := by
  unfold saveAttempt
  rw [hparse]

theorem handleSave_some (s : SaveState) (nd : GraphNode) (txt : String)
    (hsel : s.selected = some nd)
    (hsave : saveAttempt s.contents nd.path (parseOrString s.editedText) = some txt) :
    handleSave s =
      { s with
          contents := txt
          jsonStr := txt
          selected :=
            (match s.nodes.find? (fun n => pathSer n.path == pathSer nd.path) with
             | some t => some t
             | none => s.selected)
          editing := false
          editedText := "" } := by
  unfold handleSave
  rw [hsel]
  simp only [hsave]

theorem handleSave_none (s : SaveState) (nd : GraphNode)
    (hsel : s.selected = some nd)
    (hfail : saveAttempt s.contents nd.path (parseOrString s.editedText) = none) :
    handleSave s = { s with errorLog := s.errorLog ++ ["Failed to save node edit"] } := by
  unfold handleSave
  rw [hsel]
  simp only [hfail]

/-- C1 counterexample: the prior value at the path is the non-null object
`{"details": null}` — it has the key `details` — and the new value `{}` omits
it, yet the saved value at the path is `{}` without `details`: the code
requires `existingValue.details` to be truthy, and `null` is falsy. -/
theorem save_drops_falsy_details :
    getAtPathOpt
        ((jsonParse "\x7b\"a\":\x7b\"details\":null\x7d\x7d").getD JSVal.undef)
        (some [Seg.key "a"])
      = JSVal.obj [("details", JSVal.null)] ∧
    saveAttempt "\x7b\"a\":\x7b\"details\":null\x7d\x7d" (some [Seg.key "a"])
        (JSVal.obj [])
      = some "\x7b\n  \"a\": \x7b\x7d\n\x7d" ∧
    getAtPathOpt ((jsonParse "\x7b\n  \"a\": \x7b\x7d\n\x7d").getD JSVal.undef)
        (some [Seg.key "a"])
      = JSVal.obj [] ∧
    jsIndex (JSVal.obj []) (Seg.key "details") = JSVal.undef ∧
    JSVal.undef ≠ JSVal.null :=
  ⟨rfl, rfl, rfl, rfl, fun h => JSVal.noConfusion h⟩

/-- C1 (amended): for every save in which the existing value at the path and
the candidate new value are both non-null plain objects, if the prior value's
`details` (respectively `nutrients`) is present AND truthy and the new value's
is `undefined`, the saved value at the path carries it over. -/
theorem save_preserves_truthy_fields (current : String) (path : Option (List Seg))
    (parsed u : JSVal) (ef nf : List (String × JSVal))
    (hparse : jsonParse current = some parsed)
    (hex : getAtPathOpt parsed path = JSVal.obj ef)
    (hset : setAtPathOpt parsed path
      (mergePreserve (JSVal.obj ef) (JSVal.obj nf)) = some u) :
    saveAttempt current path (JSVal.obj nf) = some (jsonStringify u) ∧
    getAtPathOpt u path = mergePreserve (JSVal.obj ef) (JSVal.obj nf) ∧
    (∀ d, assocGet ef "details" = some d → truthy d = true →
      (assocGet nf "details").getD JSVal.undef = JSVal.undef →
      jsIndex (getAtPathOpt u path) (Seg.key "details") = d) ∧
    (∀ d, assocGet ef "nutrients" = some d → truthy d = true →
      (assocGet nf "nutrients").getD JSVal.undef = JSVal.undef →
      jsIndex (getAtPathOpt u path) (Seg.key "nutrients") = d) := by
  have hget : getAtPathOpt u path = mergePreserve (JSVal.obj ef) (JSVal.obj nf) :=
    setAtPathOpt_some_get parsed path _ u hset
  refine ⟨saveAttempt_some current path (JSVal.obj nf) parsed u hparse (by rw [hex]; exact hset),
    hget, ?_, ?_⟩
  · intro d hd ht hn
    rw [hget]
    exact mergePreserve_obj_details ef nf d hd ht hn
  · intro d hd ht hn
    rw [hget]
    exact mergePreserve_obj_nutrients ef nf d hd ht hn

/-- Witness for the amended C1 at a concrete save: a truthy `details` is
carried over. -/
theorem save_preserves_truthy_fields_witness :
    saveAttempt "\x7b\"a\":\x7b\"details\":\"x\"\x7d\x7d" (some [Seg.key "a"])
        (JSVal.obj [])
      = some (jsonStringify (JSVal.obj [("a", JSVal.obj [("details", JSVal.str "x")])])) ∧
    jsIndex
        (getAtPathOpt (JSVal.obj [("a", JSVal.obj [("details", JSVal.str "x")])])
          (some [Seg.key "a"]))
        (Seg.key "details")
      = JSVal.str "x" := by
  have h := save_preserves_truthy_fields "\x7b\"a\":\x7b\"details\":\"x\"\x7d\x7d"
    (some [Seg.key "a"])
    (JSVal.obj [("a", JSVal.obj [("details", JSVal.str "x")])])
    (JSVal.obj [("a", JSVal.obj [("details", JSVal.str "x")])])
    [("details", JSVal.str "x")] [] rfl rfl rfl
  exact ⟨h.1, h.2.2.1 (JSVal.str "x") rfl rfl rfl⟩

/-- C3: for every save whose edited text fails to parse as JSON (and whose
document read, parse and patch succeed), the text itself is stored as a
literal string value at the selected node's path in the updated document. -/
theorem save_invalid_text_stores_string (s : SaveState) (nd : GraphNode)
    (parsed u : JSVal)
    (hsel : s.selected = some nd)
    (hbad : jsonParse s.editedText = none)
    (hparse : jsonParse s.contents = some parsed)
    (hset : setAtPathOpt parsed nd.path (JSVal.str s.editedText) = some u) :
    saveAttempt s.contents nd.path (parseOrString s.editedText)
      = some (jsonStringify u) ∧
    getAtPathOpt u nd.path = JSVal.str s.editedText ∧
    (handleSave s).contents = jsonStringify u ∧
    (handleSave s).jsonStr = jsonStringify u := by
  have hps : parseOrString s.editedText = JSVal.str s.editedText := by
    unfold parseOrString
    rw [hbad]
  have hsave : saveAttempt s.contents nd.path (parseOrString s.editedText)
      = some (jsonStringify u) := by
    rw [hps]
    exact saveAttempt_some s.contents nd.path (JSVal.str s.editedText) parsed u hparse
      (by rw [mergePreserve_str]; exact hset)
  refine ⟨hsave, ?_, ?_, ?_⟩
  · exact setAtPathOpt_some_get parsed nd.path _ u hset
  · rw [handleSave_some s nd (jsonStringify u) hsel hsave]
  · rw [handleSave_some s nd (jsonStringify u) hsel hsave]

/-- Witness for C3 at a concrete save of non-JSON text. -/
theorem save_invalid_text_stores_string_witness :
    saveAttempt "\x7b\"a\":1\x7d" (some [Seg.key "a"]) (parseOrString "oops")
      = some (jsonStringify (JSVal.obj [("a", JSVal.str "oops")])) ∧
    getAtPathOpt (JSVal.obj [("a", JSVal.str "oops")]) (some [Seg.key "a"])
      = JSVal.str "oops" := by
  have h := save_invalid_text_stores_string
    { nodes := [], selected := some { path := some [Seg.key "a"], text := [] },
      contents := "\x7b\"a\":1\x7d", jsonStr := "", editing := true,
      editedText := "oops", errorLog := [] }
    { path := some [Seg.key "a"], text := [] }
    (JSVal.obj [("a", JSVal.num 1)]) (JSVal.obj [("a", JSVal.str "oops")])
    rfl rfl rfl rfl
  exact ⟨h.1, h.2.1⟩

/-- C4 counterexample: the edited text `"{}"` parses as valid JSON (the empty
object), but the document is NOT updated with that value at the path: the
prior value's truthy `details` is merged into it first, so the value at the
path in the updated document is `{"details": "x"}`, not `{}`. -/
theorem save_valid_text_merge_cex :
    jsonParse "\x7b\x7d" = some (JSVal.obj []) ∧
    saveAttempt "\x7b\"a\":\x7b\"details\":\"x\"\x7d\x7d" (some [Seg.key "a"])
        (JSVal.obj [])
      = some "\x7b\n  \"a\": \x7b\n    \"details\": \"x\"\n  \x7d\n\x7d" ∧
    getAtPathOpt
        ((jsonParse "\x7b\n  \"a\": \x7b\n    \"details\": \"x\"\n  \x7d\n\x7d").getD
          JSVal.undef)
        (some [Seg.key "a"])
      = JSVal.obj [("details", JSVal.str "x")] ∧
    jsIndex (JSVal.obj [("details", JSVal.str "x")]) (Seg.key "details")
      = JSVal.str "x" ∧
    jsIndex (JSVal.obj []) (Seg.key "details") = JSVal.undef ∧
    JSVal.str "x" ≠ JSVal.undef :=
  ⟨rfl, rfl, rfl, rfl, rfl, fun h => JSVal.noConfusion h⟩

/-- C4 (amended): for every save whose edited text parses as valid JSON, the
document is updated with that value — after the documented carry-over of
truthy `details`/`nutrients` from the prior value — placed at the selected
node's path, re-serialized with 2-space indentation, pushed to both the
file-content store and the JSON store, the first node whose JSON-serialized
path equals the edited node's is re-selected, and edit mode is left. -/
theorem save_valid_text_updates_and_reselects (s : SaveState) (nd : GraphNode)
    (parsed v u : JSVal)
    (hsel : s.selected = some nd)
    (hgood : jsonParse s.editedText = some v)
    (hparse : jsonParse s.contents = some parsed)
    (hset : setAtPathOpt parsed nd.path
        (mergePreserve (getAtPathOpt parsed nd.path) v) = some u) :
    handleSave s =
      { s with
          contents := jsonStringify u
          jsonStr := jsonStringify u
          selected :=
            (match s.nodes.find? (fun n => pathSer n.path == pathSer nd.path) with
             | some t => some t
             | none => s.selected)
          editing := false
          editedText := "" } ∧
    getAtPathOpt u nd.path = mergePreserve (getAtPathOpt parsed nd.path) v := by
  have hps : parseOrString s.editedText = v := by
    unfold parseOrString
    rw [hgood]
  have hsave : saveAttempt s.contents nd.path (parseOrString s.editedText)
      = some (jsonStringify u) := by
    rw [hps]
    exact saveAttempt_some s.contents nd.path v parsed u hparse hset
  exact ⟨handleSave_some s nd (jsonStringify u) hsel hsave,
    setAtPathOpt_some_get parsed nd.path _ u hset⟩

/-- Witness for the amended C4 at a concrete save: document updated, both
stores written, matching node re-selected, edit mode left. -/
theorem save_valid_text_updates_and_reselects_witness :
    handleSave
        { nodes := [{ path := some [Seg.key "a"], text := [] }],
          selected := some { path := some [Seg.key "a"], text := [] },
          contents := "\x7b\"a\":1\x7d", jsonStr := "", editing := true,
          editedText := "2", errorLog := [] }
      = { nodes := [{ path := some [Seg.key "a"], text := [] }],
          selected := some { path := some [Seg.key "a"], text := [] },
          contents := jsonStringify (JSVal.obj [("a", JSVal.num 2)]),
          jsonStr := jsonStringify (JSVal.obj [("a", JSVal.num 2)]),
          editing := false, editedText := "", errorLog := [] } ∧
    getAtPathOpt (JSVal.obj [("a", JSVal.num 2)]) (some [Seg.key "a"])
      = JSVal.num 2 := by
  have h := save_valid_text_updates_and_reselects
    { nodes := [{ path := some [Seg.key "a"], text := [] }],
      selected := some { path := some [Seg.key "a"], text := [] },
      contents := "\x7b\"a\":1\x7d", jsonStr := "", editing := true,
      editedText := "2", errorLog := [] }
    { path := some [Seg.key "a"], text := [] }
    (JSVal.obj [("a", JSVal.num 1)]) (JSVal.num 2)
    (JSVal.obj [("a", JSVal.num 2)])
    rfl rfl rfl rfl
  exact ⟨h.1, h.2⟩

/-- C10: for every save attempt that throws before the serialized result is
written (document read, parse or patch), neither the file-content store, the
JSON store, the selection nor the node list is modified. -/
theorem save_failure_leaves_stores (s : SaveState) (nd : GraphNode)
    (hsel : s.selected = some nd)
    (hfail : saveAttempt s.contents nd.path (parseOrString s.editedText) = none) :
    (handleSave s).contents = s.contents ∧
    (handleSave s).jsonStr = s.jsonStr ∧
    (handleSave s).selected = s.selected ∧
    (handleSave s).nodes = s.nodes := by
  rw [handleSave_none s nd hsel hfail]
  exact ⟨rfl, rfl, rfl, rfl⟩

/-- Witness for C10 at a concrete failing save (unparseable document). -/
theorem save_failure_leaves_stores_witness :
    (handleSave
        { nodes := [], selected := some { path := some [Seg.key "a"], text := [] },
          contents := "not json", jsonStr := "j", editing := true,
          editedText := "12", errorLog := [] }).contents = "not json" ∧
    (handleSave
        { nodes := [], selected := some { path := some [Seg.key "a"], text := [] },
          contents := "not json", jsonStr := "j", editing := true,
          editedText := "12", errorLog := [] }).jsonStr = "j" := by
  have h := save_failure_leaves_stores
    { nodes := [], selected := some { path := some [Seg.key "a"], text := [] },
      contents := "not json", jsonStr := "j", editing := true,
      editedText := "12", errorLog := [] }
    { path := some [Seg.key "a"], text := [] }
    rfl (saveAttempt_none_of_parse_none _ _ _ rfl)
  exact ⟨h.1, h.2.1⟩

/-- C2 (code bug): at a failing save the `catch` block only logs — the
component stays in edit mode and keeps the edited text, contradicting the
code's own comment "if anything fails, just exit edit mode and keep
original" and the spec's "silently exits edit mode, discarding the edit". -/
theorem save_failure_keeps_editing :
    (handleSave
        { nodes := [], selected := some { path := some [Seg.key "a"], text := [] },
          contents := "not json", jsonStr := "j", editing := true,
          editedText := "12", errorLog := [] }).editing = true ∧
    (handleSave
        { nodes := [], selected := some { path := some [Seg.key "a"], text := [] },
          contents := "not json", jsonStr := "j", editing := true,
          editedText := "12", errorLog := [] }).editedText = "12" ∧
    (handleSave
        { nodes := [], selected := some { path := some [Seg.key "a"], text := [] },
          contents := "not json", jsonStr := "j", editing := true,
          editedText := "12", errorLog := [] }).errorLog
      = ["Failed to save node edit"] :=
  ⟨rfl, rfl, rfl⟩

/-! ## Display flattening -/

theorem assocGet_assocSet_isSome (l : List (String × JSVal)) (k k' : String) (v : JSVal) :
    (assocGet (assocSet l k' v) k).isSome = true ↔
    k' = k ∨ (assocGet l k).isSome = true := by
  by_cases h : k' = k
  · subst h
    simp [assocGet_assocSet_self]
  · rw [assocGet_assocSet_ne l k k' v h]
    simp [h]

theorem flatten_f_spec (acc : List (String × JSVal)) (r : Row) (k : String) :
    (assocGet (if !(r.type == "array") && !(r.type == "object") then
        if !(r.key == "") then assocSet acc r.key r.value else acc
      else acc) k).isSome = true ↔
    ((r.key = k ∧ ¬k = "" ∧ ¬r.type = "array" ∧ ¬r.type = "object") ∨
      (assocGet acc k).isSome = true) := by
  by_cases h1 : r.type = "array"
  · simp [h1]
  · by_cases h2 : r.type = "object"
    · simp [h2]
    · by_cases h3 : r.key = ""
      · have hstep : (if !(r.type == "array") && !(r.type == "object") then
            if !(r.key == "") then assocSet acc r.key r.value else acc
          else acc) = acc := by simp [h3]
        rw [hstep]
        constructor
        · intro h
          exact Or.inr h
        · rintro (⟨hk, hne, _⟩ | h)
          · exact absurd (hk ▸ h3) hne
          · exact h
      · have hstep : (if !(r.type == "array") && !(r.type == "object") then
            if !(r.key == "") then assocSet acc r.key r.value else acc
          else acc) = assocSet acc r.key r.value := by simp [h1, h2, h3]
        rw [hstep, assocGet_assocSet_isSome]
        constructor
        · rintro (hk | h)
          · exact Or.inl ⟨hk, by rw [← hk]; exact h3, h1, h2⟩
          · exact Or.inr h
        · rintro (⟨hk, _⟩ | h)
          · exact Or.inl hk
          · exact Or.inr h

theorem flattenRows_loop_key (rows : List Row) (acc : List (String × JSVal)) (k : String) :
    (assocGet (rows.foldl
        (fun acc row =>
          if !(row.type == "array") && !(row.type == "object") then
            if !(row.key == "") then assocSet acc row.key row.value else acc
          else acc) acc) k).isSome = true ↔
    (assocGet acc k).isSome = true ∨
      ∃ r ∈ rows, r.key = k ∧ ¬k = "" ∧ ¬r.type = "array" ∧ ¬r.type = "object" := by
  induction rows generalizing acc with
  | nil => simp
  | cons r t ih =>
    rw [List.foldl_cons, ih, flatten_f_spec]
    constructor
    · rintro ((⟨hk, hrest⟩ | h) | ⟨r', hr', hrest⟩)
      · exact Or.inr ⟨r, by simp, hk, hrest⟩
      · exact Or.inl h
      · exact Or.inr ⟨r', by simp [hr'], hrest⟩
    · rintro (h | ⟨r', hr', hrest⟩)
      · exact Or.inl (Or.inr h)
      · rcases List.mem_cons.mp hr' with rfl | hr2
        · exact Or.inl (Or.inl hrest)
        · exact Or.inr ⟨r', hr2, hrest⟩

/-- C6 counterexample: a row list holding an array-typed row keyed `"a"` and a
string-typed row with the same key: the flattened object DOES contain the
array row's key (supplied by the other row). -/
theorem flatten_container_key_cex :
    (({ key := "a", value := JSVal.arr [] [], type := "array" } : Row).type
      = "array") ∧
    (({ key := "a", value := JSVal.arr [] [], type := "array" } : Row).key = "a") ∧
    assocGet
        (flattenRows
          [{ key := "a", value := JSVal.arr [] [], type := "array" },
           { key := "a", value := JSVal.str "x", type := "string" }]) "a"
      = some (JSVal.str "x") :=
  ⟨rfl, rfl, rfl⟩

/-- C6 (amended): flattening contributes nothing from any array/object-typed
row: a key appears in the flattened object iff some row with that (non-empty)
key and a non-array, non-object type occurs in the list — so a container
row's key is absent unless such another row shares it. -/
theorem flattenRows_excludes_containers (rows : List Row) (k : String) :
    (assocGet (flattenRows rows) k).isSome = true ↔
    ∃ r ∈ rows, r.key = k ∧ ¬k = "" ∧ ¬r.type = "array" ∧ ¬r.type = "object" := by
  unfold flattenRows
  rw [flattenRows_loop_key rows [] k]
  simp [assocGet]

/-- Witness for the amended C6: a lone array row's key is not in the object. -/
theorem flattenRows_excludes_containers_witness :
    (assocGet
        (flattenRows [{ key := "a", value := JSVal.arr [] [], type := "array" }])
        "a").isSome = false := by
  have h := flattenRows_excludes_containers
    [{ key := "a", value := JSVal.arr [] [], type := "array" }] "a"
  cases hx : (assocGet
      (flattenRows [{ key := "a", value := JSVal.arr [] [], type := "array" }])
      "a").isSome with
  | false => rfl
  | true =>
    obtain ⟨r, hr, _, _, harr, _⟩ := h.mp hx
    rcases List.mem_cons.mp hr with rfl | h0
    · exact absurd rfl harr
    · exact absurd h0 (by simp)

/-- C7: a row list of exactly one keyless row flattens to the bare value
coerced to a string, not to a JSON object wrapping it. -/
theorem normalize_single_keyless (r : Row) (h : r.key = "") :
    normalizeNodeData [r] = jsToString r.value := by
  show (if r.key = "" then jsToString r.value
        else jsonStringify (JSVal.obj (flattenRows [r]))) = jsToString r.value
  rw [if_pos h]

/-- Witness for C7: a keyless numeric row displays as the bare numeral. -/
theorem normalize_single_keyless_witness :
    normalizeNodeData [{ key := "", value := JSVal.num 5, type := "number" }]
      = jsToString (JSVal.num 5) :=
  normalize_single_keyless { key := "", value := JSVal.num 5, type := "number" } rfl

/-! ## The serialized document parses back: lexical lemmas -/

theorem skipWs_append_ws (ws l : List Char) (h : allWs ws = true) :
    skipWs (ws ++ l) = skipWs l := by
  induction ws with
  | nil => rfl
  | cons c cs ih =>
    simp only [allWs, List.all_cons, Bool.and_eq_true] at h
    simp only [List.cons_append, skipWs, h.1, if_true]
    exact ih (by simp [allWs, h.2])

theorem skipWs_cons_nonws (c : Char) (l : List Char) (h : wsCh c = false) :
    skipWs (c :: l) = c :: l := by
  simp [skipWs, h]

theorem allWs_spacesC (n : Nat) : allWs (spacesC n) = true := by
  induction n with
  | zero => rfl
  | succ m ih => simpa [spacesC, allWs, List.replicate_succ, wsCh] using ih

theorem skipWs_spacesC (n : Nat) (l : List Char) :
    skipWs (spacesC n ++ l) = skipWs l :=
  skipWs_append_ws (spacesC n) l (allWs_spacesC n)

theorem natKeyChars_head_digit (n : Nat) :
    ∃ c t, natKeyChars n = c :: t ∧ c.isDigit = true := by
  rcases h : natKeyChars n with _ | ⟨c, t⟩
  · exact absurd h (natKeyChars_ne_nil n)
  · refine ⟨c, t, rfl, ?_⟩
    have := natKeyChars_all_digit n
    rw [h] at this
    simp only [List.all_cons, Bool.and_eq_true] at this
    exact this.1

theorem digit_not_special (c : Char) (h : c.isDigit = true) :
    wsCh c = false ∧ c ≠ ']' ∧ c ≠ '\x7d' ∧ c ≠ ',' := by
  refine ⟨?_, ?_, ?_, ?_⟩
  · rcases hc : wsCh c with _ | _
    · rfl
    · simp only [wsCh, Bool.or_eq_true, decide_eq_true_eq] at hc
      rcases hc with ((rfl | rfl) | rfl) | rfl <;> exact absurd h (by decide)
  · intro hh
    subst hh
    exact absurd h (by decide)
  · intro hh
    subst hh
    exact absurd h (by decide)
  · intro hh
    subst hh
    exact absurd h (by decide)

/-- Every rendered value begins with a non-whitespace character that closes
nothing. -/
theorem serVal_head (ind : Nat) (v : JSVal) :
    ∃ c t, serVal ind v = c :: t ∧ wsCh c = false ∧ c ≠ ']' ∧ c ≠ '\x7d' := by
  cases v with
  | undef => refine ⟨'n', _, rfl, ?_, ?_, ?_⟩ <;> decide
  | null => refine ⟨'n', _, rfl, ?_, ?_, ?_⟩ <;> decide
  | bool b =>
    cases b with
    | true => refine ⟨'t', _, rfl, ?_, ?_, ?_⟩ <;> decide
    | false => refine ⟨'f', _, rfl, ?_, ?_, ?_⟩ <;> decide
  | str s => refine ⟨'"', _, rfl, ?_, ?_, ?_⟩ <;> decide
  | num n =>
    show ∃ c t, intKeyChars n = c :: t ∧ _
    unfold intKeyChars
    by_cases hn : n < 0
    · refine ⟨'-', _, by rw [if_pos hn], ?_, ?_, ?_⟩ <;> decide
    · obtain ⟨c, t, hct, hd⟩ := natKeyChars_head_digit n.toNat
      obtain ⟨hws, hbr, hbc, _⟩ := digit_not_special c hd
      exact ⟨c, t, by rw [if_neg hn, hct], hws, hbr, hbc⟩
  | arr xs props =>
    cases xs with
    | nil => refine ⟨'[', _, rfl, ?_, ?_, ?_⟩ <;> decide
    | cons x t => refine ⟨'[', _, rfl, ?_, ?_, ?_⟩ <;> decide
  | obj fs =>
    show ∃ c t,
      (match serFields (ind + 2) fs with
       | [] => ['\x7b', '\x7d']
       | p :: ps =>
         '\x7b' :: '\n' :: (joinFields (p :: ps) ++ '\n' :: (spacesC ind ++ ['\x7d'])))
      = c :: t ∧ _
    rcases serFields (ind + 2) fs with _ | ⟨p, ps⟩
    · refine ⟨'\x7b', _, rfl, ?_, ?_, ?_⟩ <;> decide
    · refine ⟨'\x7b', _, rfl, ?_, ?_, ?_⟩ <;> decide

theorem serVal_ne_nil (ind : Nat) (v : JSVal) : serVal ind v ≠ [] := by
  obtain ⟨c, t, h, -⟩ := serVal_head ind v
  rw [h]
  simp

/-- `parseVal` ignores leading whitespace. -/
theorem parseVal_ws (fuel : Nat) (ws cs : List Char) (h : allWs ws = true) :
    parseVal fuel (ws ++ cs) = parseVal fuel cs := by
  cases fuel with
  | zero => rfl
  | succ f => simp only [parseVal, skipWs_append_ws ws cs h]

/-- `parseObjItems` ignores leading whitespace. -/
theorem parseObjItems_ws (fuel : Nat) (ws cs : List Char) (h : allWs ws = true) :
    parseObjItems fuel (ws ++ cs) = parseObjItems fuel cs := by
  cases fuel with
  | zero => rfl
  | succ f => simp only [parseObjItems, skipWs_append_ws ws cs h]

theorem takeWhile_digits (ds rest : List Char)
    (hds : ds.all Char.isDigit = true) (hrest : noDig rest = true) :
    (ds ++ rest).takeWhile Char.isDigit = ds ∧
    (ds ++ rest).dropWhile Char.isDigit = rest := by
  induction ds with
  | nil =>
    simp only [List.nil_append]
    cases rest with
    | nil => simp
    | cons c r =>
      have hc : c.isDigit = false := by
        simp only [noDig] at hrest
        revert hrest
        cases c.isDigit <;> simp
      simp [List.takeWhile_cons, List.dropWhile_cons, hc]
  | cons d ds ih =>
    simp only [List.all_cons, Bool.and_eq_true] at hds
    have := ih hds.2
    simp [List.takeWhile_cons, List.dropWhile_cons, hds.1, this.1, this.2]

theorem parseNum_natKey (m : Nat) (rest : List Char) (hrest : noDig rest = true) :
    parseNum (natKeyChars m ++ rest) = some (m, rest) := by
  have htd := takeWhile_digits (natKeyChars m) rest (natKeyChars_all_digit m) hrest
  obtain ⟨c, t, hct, _⟩ := natKeyChars_head_digit m
  unfold parseNum
  rw [htd.1, htd.2, hct]
  have hlead : (c = '0' && !t.isEmpty) = false := by
    by_cases hc : c = '0'
    · have h0 : m = 0 := natKeyChars_head_zero m c t hct hc
      subst h0
      have : natKeyChars 0 = ['0'] := rfl
      rw [this] at hct
      have ht : t = [] := by injection hct with _ h; exact h.symm
      subst ht
      simp
    · simp [hc]
  simp only [hlead, Bool.false_eq_true, if_false, Option.some_inj]
  rw [← hct, digitsToNat_natKeyChars]

theorem parseVal_num (n : Int) (f : Nat) (rest : List Char)
    (hrest : noDig rest = true) :
    parseVal (f + 1) (intKeyChars n ++ rest) = some (JSVal.num n, rest) := by
  by_cases hn : n < 0
  · have hik : intKeyChars n = '-' :: natKeyChars n.natAbs := by
      unfold intKeyChars
      rw [if_pos hn]
    rw [hik]
    have hres := parseNum_natKey n.natAbs rest hrest
    have hval : -(Int.ofNat n.natAbs) = n := by
      simp only [Int.ofNat_eq_natCast]
      omega
    simp only [parseVal, List.cons_append]
    rw [skipWs_cons_nonws '-' _ (by decide)]
    simp [hres, hval]
    rw [abs_of_neg hn]
    ring
  · have hik : intKeyChars n = natKeyChars n.toNat := by
      unfold intKeyChars
      rw [if_neg hn]
    obtain ⟨c, t, hct, hcd⟩ := natKeyChars_head_digit n.toNat
    obtain ⟨hws, _, _, _⟩ := digit_not_special c hcd
    rw [hik, hct]
    have hres : parseNum (c :: (t ++ rest)) = some (n.toNat, rest) := by
      have := parseNum_natKey n.toNat rest hrest
      rw [hct] at this
      simpa using this
    have hval : Int.ofNat n.toNat = n := by
      simp only [Int.ofNat_eq_natCast]
      omega
    simp only [parseVal, List.cons_append]
    rw [skipWs_cons_nonws c _ hws]
    simp [hcd, hres, hval]
    omega

theorem parseStrBody_cons_other (acc : List Char) (c : Char) (l : List Char)
    (h1 : c ≠ '"') (h2 : c ≠ '\\') :
    parseStrBody acc (c :: l) = parseStrBody (c :: acc) l := by
  rw [parseStrBody.eq_def]
  simp only []
  rw [if_neg h1, if_neg h2]

theorem parseStrBody_close (acc rest : List Char) :
    parseStrBody acc ('"' :: rest) = some (String.mk acc.reverse, rest) := by
  rw [parseStrBody.eq_def]
  simp only []
  rw [if_pos trivial]

theorem parseStrBody_esc_step (acc : List Char) (c e : Char) (l : List Char)
    (hu : unesc e = some c) :
    parseStrBody acc ('\\' :: e :: l) = parseStrBody (c :: acc) l := by
  rw [parseStrBody.eq_def]
  simp only []
  rw [if_pos trivial, hu]
  rw [if_neg (by decide : ¬(('\\' : Char) = '"'))]

theorem parseStrBody_esc (l : List Char) : ∀ (acc rest : List Char),
    ∃ s, parseStrBody acc (escChars l ++ '"' :: rest) = some (s, rest) := by
  induction l with
  | nil =>
    intro acc rest
    exact ⟨String.mk acc.reverse, parseStrBody_close acc rest⟩
  | cons c cs ih =>
    intro acc rest
    show ∃ s, parseStrBody acc ((escChar c ++ escChars cs) ++ '"' :: rest) = some (s, rest)
    by_cases h1 : c = '"'
    · subst h1
      obtain ⟨s, hs⟩ := ih ('"' :: acc) rest
      refine ⟨s, ?_⟩
      show parseStrBody acc ('\\' :: '"' :: (escChars cs ++ '"' :: rest)) = some (s, rest)
      rw [parseStrBody_esc_step acc '"' '"' _ (by decide)]
      exact hs
    · by_cases h2 : c = '\\'
      · subst h2
        obtain ⟨s, hs⟩ := ih ('\\' :: acc) rest
        refine ⟨s, ?_⟩
        show parseStrBody acc ('\\' :: '\\' :: (escChars cs ++ '"' :: rest)) = some (s, rest)
        rw [parseStrBody_esc_step acc '\\' '\\' _ (by decide)]
        exact hs
      · by_cases h3 : c = '\n'
        · subst h3
          obtain ⟨s, hs⟩ := ih ('\n' :: acc) rest
          refine ⟨s, ?_⟩
          show parseStrBody acc ('\\' :: 'n' :: (escChars cs ++ '"' :: rest)) = some (s, rest)
          rw [parseStrBody_esc_step acc '\n' 'n' _ (by decide)]
          exact hs
        · by_cases h4 : c = '\t'
          · subst h4
            obtain ⟨s, hs⟩ := ih ('\t' :: acc) rest
            refine ⟨s, ?_⟩
            show parseStrBody acc ('\\' :: 't' :: (escChars cs ++ '"' :: rest)) = some (s, rest)
            rw [parseStrBody_esc_step acc '\t' 't' _ (by decide)]
            exact hs
          · by_cases h5 : c = '\r'
            · subst h5
              obtain ⟨s, hs⟩ := ih ('\r' :: acc) rest
              refine ⟨s, ?_⟩
              show parseStrBody acc ('\\' :: 'r' :: (escChars cs ++ '"' :: rest)) = some (s, rest)
              rw [parseStrBody_esc_step acc '\r' 'r' _ (by decide)]
              exact hs
            · have he : escChar c = [c] := by
                simp [escChar, h1, h2, h3, h4, h5]
              obtain ⟨s, hs⟩ := ih (c :: acc) rest
              refine ⟨s, ?_⟩
              rw [he]
              show parseStrBody acc (c :: (escChars cs ++ '"' :: rest)) = some (s, rest)
              rw [parseStrBody_cons_other acc c _ h1 h2]
              exact hs

theorem serItems_cons_shape (ind : Nat) (x : JSVal) (xs : List JSVal) :
    ∃ T, serItems ind (x :: xs) = spacesC ind ++ (serVal ind x ++ T) := by
  cases xs with
  | nil => exact ⟨[], by simp [serItems]⟩
  | cons y ys => exact ⟨',' :: '\n' :: serItems ind (y :: ys), by simp [serItems]⟩

theorem joinFields_cons_shape (p : List Char) (ps : List (List Char)) :
    ∃ J, joinFields (p :: ps) = p ++ J := by
  cases ps with
  | nil => exact ⟨[], by simp [joinFields]⟩
  | cons q qs => exact ⟨',' :: '\n' :: joinFields (q :: qs), by simp [joinFields]⟩

theorem serFields_cons_shape (ind : Nat) (fs : List (String × JSVal))
    (p : List Char) (ps : List (List Char)) (h : serFields ind fs = p :: ps) :
    ∃ k v, p = spacesC ind ++ (serStrChars k ++ ':' :: ' ' :: serVal ind v) := by
  induction fs with
  | nil => simp [serFields] at h
  | cons f fs ih =>
    obtain ⟨k, v⟩ := f
    cases v with
    | undef => exact ih (by simpa [serFields] using h)
    | null =>
      refine ⟨k, JSVal.null, ?_⟩
      simp only [serFields] at h
      injection h with h1 _
      exact h1.symm
    | bool b =>
      refine ⟨k, JSVal.bool b, ?_⟩
      simp only [serFields] at h
      injection h with h1 _
      exact h1.symm
    | num n =>
      refine ⟨k, JSVal.num n, ?_⟩
      simp only [serFields] at h
      injection h with h1 _
      exact h1.symm
    | str s =>
      refine ⟨k, JSVal.str s, ?_⟩
      simp only [serFields] at h
      injection h with h1 _
      exact h1.symm
    | arr xs props =>
      refine ⟨k, JSVal.arr xs props, ?_⟩
      simp only [serFields] at h
      injection h with h1 _
      exact h1.symm
    | obj gs =>
      refine ⟨k, JSVal.obj gs, ?_⟩
      simp only [serFields] at h
      injection h with h1 _
      exact h1.symm

theorem parseArrItems_succ (f : Nat) (cs : List Char) :
    parseArrItems (f + 1) cs =
      (match parseVal f cs with
       | none => none
       | some (v, rest) =>
         match skipWs rest with
         | ',' :: rest' =>
           (match parseArrItems f rest' with
            | some (vs, rest'') => some (v :: vs, rest'')
            | none => none)
         | ']' :: rest' => some ([v], rest')
         | _ => none) := rfl

theorem parseObjItems_succ (f : Nat) (cs : List Char) :
    parseObjItems (f + 1) cs =
      (match skipWs cs with
       | '"' :: cs1 =>
         (match parseStrBody [] cs1 with
          | none => none
          | some (k, cs2) =>
            match skipWs cs2 with
            | ':' :: cs3 =>
              (match parseVal f cs3 with
               | none => none
               | some (v, cs4) =>
                 match skipWs cs4 with
                 | ',' :: cs5 =>
                   (match parseObjItems f cs5 with
                    | some (fs, cs6) => some ((k, v) :: fs, cs6)
                    | none => none)
                 | '\x7d' :: cs5 => some ([(k, v)], cs5)
                 | _ => none)
            | _ => none)
       | _ => none) := rfl

theorem parseVal_token_null (f : Nat) (rest : List Char) :
    parseVal (f + 1) (['n', 'u', 'l', 'l'] ++ rest) = some (JSVal.null, rest) := by
  simp only [parseVal, List.cons_append, List.nil_append]
  rw [skipWs_cons_nonws 'n' _ (by decide)]
  simp

theorem parseVal_token_true (f : Nat) (rest : List Char) :
    parseVal (f + 1) (['t', 'r', 'u', 'e'] ++ rest) = some (JSVal.bool true, rest) := by
  simp only [parseVal, List.cons_append, List.nil_append]
  rw [skipWs_cons_nonws 't' _ (by decide)]
  simp

theorem parseVal_token_false (f : Nat) (rest : List Char) :
    parseVal (f + 1) (['f', 'a', 'l', 's', 'e'] ++ rest) = some (JSVal.bool false, rest) := by
  simp only [parseVal, List.cons_append, List.nil_append]
  rw [skipWs_cons_nonws 'f' _ (by decide)]
  simp

theorem parseVal_str (f : Nat) (s : String) (rest : List Char) :
    ∃ w, parseVal (f + 1) (serStrChars s ++ rest) = some (w, rest) := by
  obtain ⟨s', hs⟩ := parseStrBody_esc s.data [] rest
  refine ⟨JSVal.str s', ?_⟩
  have harg : serStrChars s ++ rest = '"' :: (escChars s.data ++ ('"' :: rest)) := by
    simp [serStrChars]
  rw [harg]
  simp only [parseVal]
  rw [skipWs_cons_nonws '"' _ (by decide)]
  simp [hs]

theorem parseVal_arr_step (f ind : Nat) (x : JSVal) (xs : List JSVal)
    (tail : List Char) :
    parseVal (f + 1) ('[' :: '\n' :: (serItems ind (x :: xs) ++ tail))
      = (match parseArrItems f ('\n' :: (serItems ind (x :: xs) ++ tail)) with
         | some (vs, rest') => some (JSVal.arr vs [], rest')
         | none => none) := by
  obtain ⟨T, hT⟩ := serItems_cons_shape ind x xs
  obtain ⟨c, t, hct, hws, hbr, _⟩ := serVal_head ind x
  have hskip : skipWs ('\n' :: (serItems ind (x :: xs) ++ tail))
      = c :: (t ++ (T ++ tail)) := by
    rw [hT]
    rw [show (spacesC ind ++ (serVal ind x ++ T)) ++ tail
          = spacesC ind ++ (serVal ind x ++ (T ++ tail)) by simp]
    rw [show skipWs ('\n' :: (spacesC ind ++ (serVal ind x ++ (T ++ tail))))
          = skipWs (spacesC ind ++ (serVal ind x ++ (T ++ tail))) from by
        simp [skipWs, wsCh]]
    rw [skipWs_spacesC, hct, List.cons_append]
    exact skipWs_cons_nonws c _ hws
  simp only [parseVal]
  rw [skipWs_cons_nonws '[' _ (by decide)]
  simp [hskip, hbr]

theorem parseVal_obj_step (f ind : Nat) (p : List Char) (ps : List (List Char))
    (k0 : String) (v0 : JSVal)
    (hp : p = spacesC ind ++ (serStrChars k0 ++ ':' :: ' ' :: serVal ind v0))
    (tail : List Char) :
    parseVal (f + 1) ('\x7b' :: '\n' :: (joinFields (p :: ps) ++ tail))
      = (match parseObjItems f ('\n' :: (joinFields (p :: ps) ++ tail)) with
         | some (gs, rest') => some (JSVal.obj gs, rest')
         | none => none) := by
  obtain ⟨J, hJ⟩ := joinFields_cons_shape p ps
  have hskip : skipWs ('\n' :: (joinFields (p :: ps) ++ tail))
      = '"' :: ((escChars k0.data ++ ['"']) ++ (':' :: ' ' :: serVal ind v0 ++ (J ++ tail))) := by
    rw [hJ, hp]
    rw [show ((spacesC ind ++ (serStrChars k0 ++ ':' :: ' ' :: serVal ind v0)) ++ J) ++ tail
          = spacesC ind ++ (serStrChars k0 ++ (':' :: ' ' :: serVal ind v0 ++ (J ++ tail)))
        by simp]
    rw [show skipWs ('\n' :: (spacesC ind ++ (serStrChars k0 ++ (':' :: ' ' :: serVal ind v0 ++ (J ++ tail)))))
          = skipWs (spacesC ind ++ (serStrChars k0 ++ (':' :: ' ' :: serVal ind v0 ++ (J ++ tail))))
        from by simp [skipWs, wsCh]]
    rw [skipWs_spacesC]
    rw [show serStrChars k0 ++ (':' :: ' ' :: serVal ind v0 ++ (J ++ tail))
          = '"' :: ((escChars k0.data ++ ['"']) ++ (':' :: ' ' :: serVal ind v0 ++ (J ++ tail)))
        from by simp [serStrChars]]
    exact skipWs_cons_nonws '"' _ (by decide)
  simp only [parseVal]
  rw [skipWs_cons_nonws '\x7b' _ (by decide)]
  simp [hskip]

mutual
/-- Any rendered value parses back successfully, consuming exactly itself. -/
theorem rt_val (v : JSVal) (ind fuel : Nat) (rest : List Char)
    (hf : (serVal ind v).length < fuel) (hrest : noDig rest = true) :
    ∃ w, parseVal fuel (serVal ind v ++ rest) = some (w, rest) := by
  cases fuel with
  | zero => exact absurd hf (by omega)
  | succ f =>
    cases v with
    | undef => exact ⟨JSVal.null, parseVal_token_null f rest⟩
    | null => exact ⟨JSVal.null, parseVal_token_null f rest⟩
    | bool b =>
      cases b with
      | true => exact ⟨JSVal.bool true, parseVal_token_true f rest⟩
      | false => exact ⟨JSVal.bool false, parseVal_token_false f rest⟩
    | num n => exact ⟨JSVal.num n, parseVal_num n f rest hrest⟩
    | str s => exact parseVal_str f s rest
    | arr xs props =>
      cases xs with
      | nil =>
        refine ⟨JSVal.arr [] [], ?_⟩
        show parseVal (f + 1) (['[', ']'] ++ rest) = some (JSVal.arr [] [], rest)
        simp only [parseVal, List.cons_append, List.nil_append]
        rw [skipWs_cons_nonws '[' _ (by decide)]
        simp [skipWs_cons_nonws ']' rest (by decide)]
      | cons x xs' =>
        have harg : serVal ind (JSVal.arr (x :: xs') props) ++ rest
            = '[' :: '\n' :: (serItems (ind + 2) (x :: xs')
                ++ ('\n' :: (spacesC ind ++ (']' :: rest)))) := by
          simp [serVal]
        have hlen : (serItems (ind + 2) (x :: xs')).length + 1 < f := by
          have h2 : (serVal ind (JSVal.arr (x :: xs') props)).length
              = (serItems (ind + 2) (x :: xs')).length + ind + 4 := by
            simp [serVal, spacesC]
            omega
          omega
        obtain ⟨vs, hvs⟩ := rt_items x xs' (ind + 2) ind f ['\n'] rest (by decide) hlen
        refine ⟨JSVal.arr vs [], ?_⟩
        rw [harg, parseVal_arr_step f (ind + 2) x xs'
              ('\n' :: (spacesC ind ++ (']' :: rest)))]
        have hvs2 : parseArrItems f ('\n' :: (serItems (ind + 2) (x :: xs')
              ++ ('\n' :: (spacesC ind ++ (']' :: rest))))) = some (vs, rest) := hvs
        rw [hvs2]
    | obj fs =>
      rcases hsf : serFields (ind + 2) fs with _ | ⟨p, ps⟩
      · refine ⟨JSVal.obj [], ?_⟩
        have harg : serVal ind (JSVal.obj fs) ++ rest = '\x7b' :: '\x7d' :: rest := by
          simp [serVal, hsf]
        rw [harg]
        simp only [parseVal]
        rw [skipWs_cons_nonws '\x7b' _ (by decide)]
        simp [skipWs_cons_nonws '\x7d' rest (by decide)]
      · obtain ⟨k0, v0, hp⟩ := serFields_cons_shape (ind + 2) fs p ps hsf
        have harg : serVal ind (JSVal.obj fs) ++ rest
            = '\x7b' :: '\n' :: (joinFields (p :: ps)
                ++ ('\n' :: (spacesC ind ++ ('\x7d' :: rest)))) := by
          simp [serVal, hsf]
        have hlen : (joinFields (p :: ps)).length + 1 < f := by
          have h2 : (serVal ind (JSVal.obj fs)).length
              = (joinFields (p :: ps)).length + ind + 4 := by
            simp [serVal, hsf, spacesC]
            omega
          omega
        obtain ⟨gs, hgs⟩ := rt_fields fs (ind + 2) ind f ['\n'] rest (by decide)
          (by rw [hsf]; simp) (by rw [hsf]; omega)
        refine ⟨JSVal.obj gs, ?_⟩
        rw [harg, parseVal_obj_step f (ind + 2) p ps k0 v0 hp
              ('\n' :: (spacesC ind ++ ('\x7d' :: rest)))]
        rw [hsf] at hgs
        have hgs2 : parseObjItems f ('\n' :: (joinFields (p :: ps)
              ++ ('\n' :: (spacesC ind ++ ('\x7d' :: rest))))) = some (gs, rest) := hgs
        rw [hgs2]
termination_by (fuel, 0)
decreasing_by
all_goals simp_wf
all_goals apply Prod.Lex.left
all_goals omega

/-- A rendered element sequence parses through `parseArrItems` up to the
closing bracket. -/
theorem rt_items (x : JSVal) (xs : List JSVal) (ind ind2 fuel : Nat)
    (ws rest : List Char) (hws : allWs ws = true)
    (hf : (serItems ind (x :: xs)).length + 1 < fuel) :
    ∃ vs, parseArrItems fuel
      (ws ++ (serItems ind (x :: xs) ++ ('\n' :: (spacesC ind2 ++ (']' :: rest)))))
      = some (vs, rest) := by
  cases fuel with
  | zero => exact absurd hf (by omega)
  | succ f =>
    cases xs with
    | nil =>
      have hlen : (serVal ind x).length < f := by
        have h2 : (serItems ind [x]).length = ind + (serVal ind x).length := by
          simp [serItems, spacesC]
        omega
      obtain ⟨w, hw⟩ := rt_val x ind f ('\n' :: (spacesC ind2 ++ (']' :: rest)))
        hlen rfl
      refine ⟨[w], ?_⟩
      rw [parseArrItems_succ]
      rw [show ws ++ (serItems ind [x] ++ ('\n' :: (spacesC ind2 ++ (']' :: rest))))
            = (ws ++ spacesC ind)
              ++ (serVal ind x ++ ('\n' :: (spacesC ind2 ++ (']' :: rest))))
          from by simp [serItems]]
      rw [parseVal_ws f (ws ++ spacesC ind) _
            (by simp [allWs] at hws ⊢
                exact ⟨hws, by have := allWs_spacesC ind; simpa [allWs] using this⟩),
          hw]
      have hskip : skipWs ('\n' :: (spacesC ind2 ++ (']' :: rest))) = ']' :: rest := by
        rw [show skipWs ('\n' :: (spacesC ind2 ++ (']' :: rest)))
              = skipWs (spacesC ind2 ++ (']' :: rest)) from by simp [skipWs, wsCh],
            skipWs_spacesC]
        exact skipWs_cons_nonws ']' _ (by decide)
      simp [hskip]
    | cons y ys =>
      have hlen1 : (serVal ind x).length < f := by
        have h2 : (serItems ind (x :: y :: ys)).length
            = ind + (serVal ind x).length + 2 + (serItems ind (y :: ys)).length := by
          simp [serItems, spacesC]
          omega
        omega
      have hlen2 : (serItems ind (y :: ys)).length + 1 < f := by
        have h2 : (serItems ind (x :: y :: ys)).length
            = ind + (serVal ind x).length + 2 + (serItems ind (y :: ys)).length := by
          simp [serItems, spacesC]
          omega
        have h3 : (serVal ind x).length ≥ 1 := by
          obtain ⟨c, t, hct, -⟩ := serVal_head ind x
          rw [hct]
          simp
        omega
      obtain ⟨w, hw⟩ := rt_val x ind f
        (',' :: '\n' :: (serItems ind (y :: ys)
          ++ ('\n' :: (spacesC ind2 ++ (']' :: rest))))) hlen1 rfl
      obtain ⟨vs, hvs⟩ := rt_items y ys ind ind2 f ['\n'] rest (by decide) hlen2
      refine ⟨w :: vs, ?_⟩
      rw [parseArrItems_succ]
      rw [show ws ++ (serItems ind (x :: y :: ys)
              ++ ('\n' :: (spacesC ind2 ++ (']' :: rest))))
            = (ws ++ spacesC ind)
              ++ (serVal ind x ++ (',' :: '\n' :: (serItems ind (y :: ys)
                ++ ('\n' :: (spacesC ind2 ++ (']' :: rest))))))
          from by simp [serItems]]
      rw [parseVal_ws f (ws ++ spacesC ind) _
            (by simp [allWs] at hws ⊢
                exact ⟨hws, by have := allWs_spacesC ind; simpa [allWs] using this⟩),
          hw]
      have hskip : skipWs (',' :: '\n' :: (serItems ind (y :: ys)
            ++ ('\n' :: (spacesC ind2 ++ (']' :: rest)))))
          = ',' :: '\n' :: (serItems ind (y :: ys)
            ++ ('\n' :: (spacesC ind2 ++ (']' :: rest)))) :=
        skipWs_cons_nonws ',' _ (by decide)
      simp only [hskip]
      have hvs2 : parseArrItems f ('\n' :: (serItems ind (y :: ys)
            ++ ('\n' :: (spacesC ind2 ++ (']' :: rest))))) = some (vs, rest) := hvs
      simp [hvs2]
termination_by (fuel, 0)
decreasing_by
all_goals simp_wf
all_goals apply Prod.Lex.left
all_goals omega

/-- A rendered (non-empty) field sequence parses through `parseObjItems` up to
the closing brace. -/
theorem rt_fields (fs : List (String × JSVal)) (ind ind2 fuel : Nat)
    (ws rest : List Char) (hws : allWs ws = true)
    (hne : serFields ind fs ≠ [])
    (hf : (joinFields (serFields ind fs)).length + 1 < fuel) :
    ∃ gs, parseObjItems fuel
      (ws ++ (joinFields (serFields ind fs)
        ++ ('\n' :: (spacesC ind2 ++ ('\x7d' :: rest)))))
      = some (gs, rest) := by
  cases fs with
  | nil => exact absurd rfl hne
  | cons kv fs' =>
    obtain ⟨k, v⟩ := kv
    by_cases hvu : v = JSVal.undef
    · subst hvu
      have hsk : serFields ind ((k, JSVal.undef) :: fs') = serFields ind fs' := by
        simp [serFields]
      rw [hsk] at hne hf ⊢
      exact rt_fields fs' ind ind2 fuel ws rest hws hne hf
    · have hsf : serFields ind ((k, v) :: fs')
          = (spacesC ind ++ (serStrChars k ++ ':' :: ' ' :: serVal ind v))
            :: serFields ind fs' := by
        cases v with
        | undef => exact absurd rfl hvu
        | null => simp [serFields]
        | bool b => simp [serFields]
        | num n => simp [serFields]
        | str s => simp [serFields]
        | arr xs props => simp [serFields]
        | obj gs => simp [serFields]
      cases fuel with
      | zero => exact absurd hf (by omega)
      | succ f =>
        rw [hsf] at hf ⊢
        rcases hsf2 : serFields ind fs' with _ | ⟨q, qs⟩
        · rw [hsf2] at hf
          have hlenv : (serVal ind v).length < f := by
            have h2 : (joinFields
                [spacesC ind ++ (serStrChars k ++ ':' :: ' ' :: serVal ind v)]).length
                = ind + (escChars k.data).length + 4 + (serVal ind v).length := by
              simp [joinFields, serStrChars, spacesC]
              omega
            omega
          obtain ⟨w, hw⟩ := rt_val v ind f
            ('\n' :: (spacesC ind2 ++ ('\x7d' :: rest))) hlenv rfl
          obtain ⟨s', hstr⟩ := parseStrBody_esc k.data []
            (':' :: ' ' :: (serVal ind v
              ++ ('\n' :: (spacesC ind2 ++ ('\x7d' :: rest)))))
          refine ⟨[(s', w)], ?_⟩
          rw [parseObjItems_succ]
          have hskip : skipWs (ws ++ (joinFields
                [spacesC ind ++ (serStrChars k ++ ':' :: ' ' :: serVal ind v)]
                ++ ('\n' :: (spacesC ind2 ++ ('\x7d' :: rest)))))
              = '"' :: (escChars k.data ++ ('"' :: (':' :: ' ' :: (serVal ind v
                ++ ('\n' :: (spacesC ind2 ++ ('\x7d' :: rest))))))) := by
            rw [skipWs_append_ws ws _ hws]
            rw [show (joinFields
                  [spacesC ind ++ (serStrChars k ++ ':' :: ' ' :: serVal ind v)]
                  ++ ('\n' :: (spacesC ind2 ++ ('\x7d' :: rest))))
                = spacesC ind ++ ('"' :: (escChars k.data ++ ('"' :: (':' :: ' ' :: (serVal ind v
                  ++ ('\n' :: (spacesC ind2 ++ ('\x7d' :: rest))))))))
              from by simp [joinFields, serStrChars]]
            rw [skipWs_spacesC]
            exact skipWs_cons_nonws '"' _ (by decide)
          rw [hskip]
          have hval : parseVal f (' ' :: (serVal ind v
              ++ ('\n' :: (spacesC ind2 ++ ('\x7d' :: rest)))))
              = some (w, '\n' :: (spacesC ind2 ++ ('\x7d' :: rest))) := by
            have h0 : parseVal f ([' '] ++ (serVal ind v
                ++ ('\n' :: (spacesC ind2 ++ ('\x7d' :: rest)))))
                = some (w, '\n' :: (spacesC ind2 ++ ('\x7d' :: rest))) := by
              rw [parseVal_ws f [' '] _ (by decide)]
              exact hw
            exact h0
          have hcl : skipWs ('\n' :: (spacesC ind2 ++ ('\x7d' :: rest)))
              = '\x7d' :: rest := by
            rw [show skipWs ('\n' :: (spacesC ind2 ++ ('\x7d' :: rest)))
                  = skipWs (spacesC ind2 ++ ('\x7d' :: rest)) from by simp [skipWs, wsCh],
                skipWs_spacesC]
            exact skipWs_cons_nonws '\x7d' _ (by decide)
          simp [hstr, hval, hcl, skipWs_cons_nonws ':' _ (by decide)]
        · rw [hsf2] at hf
          have hlenv : (serVal ind v).length < f := by
            have h2 : (joinFields
                ((spacesC ind ++ (serStrChars k ++ ':' :: ' ' :: serVal ind v)) :: q :: qs)).length
                = ind + (escChars k.data).length + 6 + (serVal ind v).length
                  + (joinFields (q :: qs)).length := by
              simp [joinFields, serStrChars, spacesC]
              omega
            omega
          have hlenq : (joinFields (q :: qs)).length + 1 < f := by
            have h2 : (joinFields
                ((spacesC ind ++ (serStrChars k ++ ':' :: ' ' :: serVal ind v)) :: q :: qs)).length
                = ind + (escChars k.data).length + 6 + (serVal ind v).length
                  + (joinFields (q :: qs)).length := by
              simp [joinFields, serStrChars, spacesC]
              omega
            have h3 : (serVal ind v).length ≥ 1 := by
              obtain ⟨c, t, hct, -⟩ := serVal_head ind v
              rw [hct]
              simp
            omega
          obtain ⟨w, hw⟩ := rt_val v ind f
            (',' :: '\n' :: (joinFields (q :: qs)
              ++ ('\n' :: (spacesC ind2 ++ ('\x7d' :: rest))))) hlenv rfl
          obtain ⟨s', hstr⟩ := parseStrBody_esc k.data []
            (':' :: ' ' :: (serVal ind v
              ++ (',' :: '\n' :: (joinFields (q :: qs)
                ++ ('\n' :: (spacesC ind2 ++ ('\x7d' :: rest)))))))
          obtain ⟨gs, hgs⟩ := rt_fields fs' ind ind2 f ['\n'] rest (by decide)
            (by rw [hsf2]; simp) (by rw [hsf2]; omega)
          rw [hsf2] at hgs
          refine ⟨(s', w) :: gs, ?_⟩
          rw [parseObjItems_succ]
          have hskip : skipWs (ws ++ (joinFields
                ((spacesC ind ++ (serStrChars k ++ ':' :: ' ' :: serVal ind v)) :: q :: qs)
                ++ ('\n' :: (spacesC ind2 ++ ('\x7d' :: rest)))))
              = '"' :: (escChars k.data ++ ('"' :: (':' :: ' ' :: (serVal ind v
                ++ (',' :: '\n' :: (joinFields (q :: qs)
                  ++ ('\n' :: (spacesC ind2 ++ ('\x7d' :: rest))))))))) := by
            rw [skipWs_append_ws ws _ hws]
            rw [show (joinFields
                  ((spacesC ind ++ (serStrChars k ++ ':' :: ' ' :: serVal ind v)) :: q :: qs)
                  ++ ('\n' :: (spacesC ind2 ++ ('\x7d' :: rest))))
                = spacesC ind ++ ('"' :: (escChars k.data ++ ('"' :: (':' :: ' ' :: (serVal ind v
                  ++ (',' :: '\n' :: (joinFields (q :: qs)
                    ++ ('\n' :: (spacesC ind2 ++ ('\x7d' :: rest))))))))))
              from by simp [joinFields, serStrChars]]
            rw [skipWs_spacesC]
            exact skipWs_cons_nonws '"' _ (by decide)
          rw [hskip]
          have hval : parseVal f (' ' :: (serVal ind v
              ++ (',' :: '\n' :: (joinFields (q :: qs)
                ++ ('\n' :: (spacesC ind2 ++ ('\x7d' :: rest)))))))
              = some (w, ',' :: '\n' :: (joinFields (q :: qs)
                ++ ('\n' :: (spacesC ind2 ++ ('\x7d' :: rest))))) := by
            have h0 : parseVal f ([' '] ++ (serVal ind v
                ++ (',' :: '\n' :: (joinFields (q :: qs)
                  ++ ('\n' :: (spacesC ind2 ++ ('\x7d' :: rest)))))))
                = some (w, ',' :: '\n' :: (joinFields (q :: qs)
                  ++ ('\n' :: (spacesC ind2 ++ ('\x7d' :: rest))))) := by
              rw [parseVal_ws f [' '] _ (by decide)]
              exact hw
            exact h0
          have hobj : parseObjItems f ('\n' :: (joinFields (q :: qs)
              ++ ('\n' :: (spacesC ind2 ++ ('\x7d' :: rest)))))
              = some (gs, rest) := hgs
          simp [hstr, hval, hobj, skipWs_cons_nonws ':' _ (by decide),
            skipWs_cons_nonws ',' _ (by decide)]
termination_by (fuel, sizeOf fs)
decreasing_by
all_goals simp_wf
all_goals first
| (apply Prod.Lex.left
   omega)
| (apply Prod.Lex.right
   subst_vars
   simp
   try omega)
end

/-- `JSON.stringify(v, null, 2)` always yields text that `JSON.parse`
accepts: the rendered characters parse back with nothing left over. -/
theorem jsonStringify_reparses (v : JSVal) :
    (jsonParse (jsonStringify v)).isSome = true := by
  have hdata : (jsonStringify v).data = serVal 0 v := rfl
  have hlen : (jsonStringify v).length = (serVal 0 v).length := rfl
  obtain ⟨w, hw⟩ := rt_val v 0 (2 * (serVal 0 v).length + 2) []
    (by omega) rfl
  rw [List.append_nil] at hw
  unfold jsonParse
  rw [hdata, hlen, hw]
  simp [skipWs]

/-- Every string the `try` block of `handleSave` produces is the
2-space-indented `JSON.stringify` of some value. -/
theorem saveAttempt_some_inv (cur : String) (path : Option (List Seg))
    (nv : JSVal) (txt : String)
    (h : saveAttempt cur path nv = some txt) :
    ∃ u, txt = jsonStringify u := by
  unfold saveAttempt at h
  rcases hp : jsonParse cur with _ | parsed
  · rw [hp] at h; exact absurd h (by simp)
  · rw [hp] at h
    simp only [] at h
    rcases hs : setAtPathOpt parsed path
        (mergePreserve (getAtPathOpt parsed path) nv) with _ | updated
    · rw [hs] at h; exact absurd h (by simp)
    · rw [hs] at h
      simp only [Option.some.injEq] at h
      exact ⟨updated, h.symm⟩

/-- C5: after every successful save, the text written to both the
file-content store and the JSON store is valid JSON text — re-parsing it
succeeds, since it is the `JSON.stringify` of the patched document. -/
theorem save_output_reparses (s : SaveState) (nd : GraphNode) (txt : String)
    (hsel : s.selected = some nd)
    (hsave : saveAttempt s.contents nd.path (parseOrString s.editedText) = some txt) :
    (handleSave s).contents = txt ∧ (handleSave s).jsonStr = txt ∧
    (jsonParse txt).isSome = true := by
  obtain ⟨u, hu⟩ := saveAttempt_some_inv _ _ _ _ hsave
  rw [handleSave_some s nd txt hsel hsave]
  exact ⟨rfl, rfl, by rw [hu]; exact jsonStringify_reparses u⟩

/-- Witness for C5 at a concrete successful save: the stored text is the
re-serialized document and parses back. -/
theorem save_output_reparses_witness :
    (handleSave
        { nodes := [], selected := some { path := some [Seg.key "a"], text := [] },
          contents := "\x7b\x7d", jsonStr := "", editing := true,
          editedText := "5", errorLog := [] }).contents
        = "\x7b\n  \"a\": 5\n\x7d" ∧
    (handleSave
        { nodes := [], selected := some { path := some [Seg.key "a"], text := [] },
          contents := "\x7b\x7d", jsonStr := "", editing := true,
          editedText := "5", errorLog := [] }).jsonStr
        = "\x7b\n  \"a\": 5\n\x7d" ∧
    (jsonParse "\x7b\n  \"a\": 5\n\x7d").isSome = true :=
  save_output_reparses
    { nodes := [], selected := some { path := some [Seg.key "a"], text := [] },
      contents := "\x7b\x7d", jsonStr := "", editing := true,
      editedText := "5", errorLog := [] }
    { path := some [Seg.key "a"], text := [] }
    "\x7b\n  \"a\": 5\n\x7d" rfl rfl
